import Mathlib

/-!
Verification of the `opt_einsum` contraction planner and executor
(`src/opt_einsum.py`) against its natural-language specification.

The source is Python 2 era code (`map`/`zip` return lists there, and
`len` is applied to the result of `map`); the shallow embedding below
translates each function accordingly.  Index labels are `Char`, machine
integers are `Nat`/`Int` (Python integers are arbitrary precision, so no
modular wrap is needed), arrays are modelled exactly over `Int` (the
executor's reshape/transpose layout choices do not change element
values, only memory layout, so all five `np.dot` orientations and
`np.tensordot` realize the same generalized reduction, which is what the
embedding records).
-/

namespace OptEinsum

/-- Value of a tensor, as a function of an assignment of every index
label to a coordinate.  An operand with axis labels `term` and raw data
`a : List Nat → Int` becomes `fun s => a (term.map s)`; repeated labels
inside one term then read the diagonal, exactly as `np.einsum` does. -/
def Val : Type := (Char → Nat) → Int

/-- `_compute_size(inds, ind_dict)` for a list of labels: the product of
the dimension of every label occurrence (an empty list gives 1). -/
def computeSize (inds : List Char) (d : Char → Nat) : Nat :=
  inds.foldl (fun ret i => ret * d i) 1

/-- `_compute_size` applied to a Python `set` of labels: product over
the distinct labels. -/
def computeSizeF (inds : Finset Char) (d : Char → Nat) : Nat :=
  inds.prod d

/-- Union of a list of label sets. -/
def listUnion (l : List (Finset Char)) : Finset Char :=
  l.foldr (fun s acc => s ∪ acc) ∅

/-- Helper for `_find_contraction`: walks `enumerate(input_sets)` with a
running index, returning `(index_contract, index_remain_part, remaining)`
where `index_remain_part` is the union of the unselected sets (the
output set is united in afterwards) and `remaining` keeps the unselected
sets in their original order. -/
def fcAux (positions : List Nat) : Nat → List (Finset Char) →
    Finset Char × Finset Char × List (Finset Char)
  | _, [] => (∅, ∅, [])
  | i, s :: rest =>
    let r := fcAux positions (i + 1) rest
    if i ∈ positions then (s ∪ r.1, r.2.1, r.2.2)
    else (r.1, s ∪ r.2.1, s :: r.2.2)

/-- `_find_contraction(positions, input_sets, output_set)`.  Returns
`(new_result, remaining, index_removed, index_contract)`. -/
def findContraction (positions : List Nat) (inputSets : List (Finset Char))
    (outputSet : Finset Char) :
    Finset Char × List (Finset Char) × Finset Char × Finset Char :=
  let a := fcAux positions 0 inputSets
  let indexContract := a.1
  let indexRemain := outputSet ∪ a.2.1
  let newResult := indexRemain ∩ indexContract
  let indexRemoved := indexContract \ newResult
  (newResult, a.2.2 ++ [newResult], indexRemoved, indexContract)

/-- Iterated summation: `sumOver d [l1, ..., lk] f s` sums `f` over all
ways of rebinding the labels `l1 ... lk` to coordinates below their
dimensions, keeping the rest of the assignment `s` fixed.  This is the
meaning of summing over the axes named by a list of labels. -/
def sumOver (d : Char → Nat) : List Char → Val → Val
  | [], f => f
  | l :: ls, f => fun σ =>
      Finset.sum (Finset.range (d l)) (fun i => sumOver d ls f (Function.update σ l i))

/-- Pointwise product of the values of a list of tensors. -/
def prodVals (vals : List Val) : Val :=
  fun σ => (vals.map (fun v => v σ)).prod

/-- All labels appearing in a list of terms. -/
def termsUnion (terms : List (List Char)) : Finset Char :=
  (terms.foldr (fun t acc => t ++ acc) []).toFinset

/-- The labels a generalized reduction sums over: every label appearing
in some input term but not in the output term (in a canonical sorted
order; the value does not depend on the order). -/
def summedLabels (terms : List (List Char)) (outT : List Char) : List Char :=
  (termsUnion terms \ outT.toFinset).sort (fun a b => a ≤ b)

/-- Exact-arithmetic semantics of `np.einsum(",".join(terms) + "->" + outT, *vals)`:
multiply all operands pointwise and sum over every label that does not
survive into the output term. -/
def einsumVal (d : Char → Nat) (terms : List (List Char)) (vals : List Val)
    (outT : List Char) : Val :=
  sumOver d (summedLabels terms outT) (prodVals vals)

/-- A tensor value only reads the coordinates of labels in `S`. -/
def DependsOnlyOn (v : Val) (S : Finset Char) : Prop :=
  ∀ (σ : Char → Nat) (c : Char) (i : Nat), c ∉ S → v (Function.update σ c i) = v σ

/-- One live operand during the contraction loop of `contract`.  `iset`
is the entry of `input_set` (the index-set bookkeeping maintained through
`_find_contraction`), `term` the entry of `input_list` (the label
string), and `val` the entry of `views` (the array, in assignment
semantics).  The three Python lists always have equal length and are
updated in lock step, so the embedding zips them. -/
structure Entry where
  iset : Finset Char
  term : List Char
  val : Val

/-- The einsum meaning of a whole operand list: multiply every live
operand and reduce to the output term. -/
def meaning (d : Char → Nat) (outT : List Char) (st : List Entry) : Val :=
  einsumVal d (st.map Entry.term) (st.map Entry.val) outT

/-- Insertion into a descending-sorted list of naturals. -/
def insertDesc (x : Nat) : List Nat → List Nat
  | [] => [x]
  | y :: ys => if x ≥ y then x :: y :: ys else y :: insertDesc x ys

/-- `sorted(lst, reverse=True)` on a list of indices. -/
def sortDesc (l : List Nat) : List Nat := l.foldr insertDesc []

/-- `zip(*np.triu_indices(n, 1))`: every unordered pair of positions
`(i, j)` with `i < j < n`, in row-major (lexicographic) order. -/
def triuPairs (n : Nat) : List (Nat × Nat) :=
  (List.range n).flatMap (fun i => ((List.range n).drop (i + 1)).map (fun j => (i, j)))

/-- One partial candidate of `_path_optimal`: the accumulated cost, the
pair chosen at each earlier round, and the label sets of the operands
still alive. -/
structure Cand where
  cost : Nat
  pos : List (Nat × Nat)
  rem : List (Finset Char)
deriving DecidableEq

/-- Expansion of one candidate by one round of `_path_optimal`: try every
pair of live positions, drop the ones whose result would exceed the
memory ceiling, charge `size(index_contract)` (doubled when the step
eliminates at least one label), and record the reduced operand list. -/
def optExtend (out : Finset Char) (d : Char → Nat) (memory : Nat) (k : Nat)
    (c : Cand) : List Cand :=
  (triuPairs k).filterMap (fun con =>
    let fc := findContraction [con.1, con.2] c.rem out
    if computeSizeF fc.1 d > memory then none
    else
      let base := computeSizeF fc.2.2.2 d
      let stepCost := if fc.2.2.1 = ∅ then base else 2 * base
      some ⟨c.cost + stepCost, c.pos ++ [con], fc.2.1⟩)

/-- One full round of `_path_optimal`: expand every surviving candidate
(`for curr in current: for con in comb_iter:`). -/
def optRound (out : Finset Char) (d : Char → Nat) (memory : Nat) (k : Nat)
    (cur : List Cand) : List Cand :=
  cur.flatMap (optExtend out d memory k)

/-- The candidate list left in `new` after the `len(inp) - 1` rounds of
`_path_optimal` (round `iteration` pairs positions below
`len(inp) - iteration`). -/
def optCands (inp : List (List Char)) (out : Finset Char) (d : Char → Nat)
    (memory : Nat) : List Cand :=
  (List.range (inp.length - 1)).foldl
    (fun cur iteration => optRound out d memory (inp.length - iteration) cur)
    [⟨0, [], inp.map List.toFinset⟩]

/-- Lexicographic strict comparison of index pairs. -/
def pairLt (a b : Nat × Nat) : Bool :=
  decide (a.1 < b.1) || (decide (a.1 = b.1) && decide (a.2 < b.2))

/-- Python lexicographic strict comparison of position lists. -/
def posListLt : List (Nat × Nat) → List (Nat × Nat) → Bool
  | [], [] => false
  | [], _ :: _ => true
  | _ :: _, [] => false
  | a :: as, b :: bs => pairLt a b || (decide (a = b) && posListLt as bs)

/-- Python tuple comparison used by `new.sort()` in `_path_optimal`: by
cost, then by the position list.  Distinct candidates never share both,
so the third component (`remaining`, a list of sets) is never compared. -/
def candLt (a b : Cand) : Bool :=
  decide (a.cost < b.cost) || (decide (a.cost = b.cost) && posListLt a.pos b.pos)

/-- First minimum of `x :: l` with respect to a strict comparison, which
is what `lst.sort()` followed by `lst[0]` selects. -/
def pickMinBy (lt : α → α → Bool) : α → List α → α
  | x, [] => x
  | x, y :: ys => pickMinBy lt (if lt y x then y else x) ys

/-- `_path_optimal(inp, out, ind_dict, memory)`.  Returns `none` exactly
when `len(inp) <= 1`: the round loop never runs, so the Python code hits
an unbound local `new` (a `NameError`).  Otherwise, if every candidate
was pruned, falls back to contracting everything in one step; else picks
the sorted-first candidate. -/
def pathOptimal (inp : List (List Char)) (out : Finset Char) (d : Char → Nat)
    (memory : Nat) : Option (List (List Nat)) :=
  if inp.length ≤ 1 then none
  else
    match optCands inp out d memory with
    | [] => some [List.range inp.length]
    | c :: cs => some ((pickMinBy candLt c cs).pos.map (fun p => [p.1, p.2]))

/-- One scored pair in a round of `_path_opportunistic`: the Python sort
key `(-removed_size, cost)`, the pair, and the updated operand list. -/
structure OppCand where
  key : Int × Nat
  pos : Nat × Nat
  rem : List (Finset Char)
deriving DecidableEq

/-- One round of `_path_opportunistic`: score every pair of live
positions and drop those whose result exceeds the memory ceiling. -/
def oppRound (out : Finset Char) (d : Char → Nat) (memory : Nat)
    (sets : List (Finset Char)) : List OppCand :=
  (triuPairs sets.length).filterMap (fun positions =>
    let fc := findContraction [positions.1, positions.2] sets out
    if computeSizeF fc.1 d > memory then none
    else
      let removedSize := computeSizeF fc.2.2.1 d
      let cost := computeSizeF fc.2.2.2 d
      some ⟨(-(removedSize : Int), cost), positions, fc.2.1⟩)

/-- Python comparison used by `iteration_results.sort()`: by the
`(-removed_size, cost)` key, then by the position pair.  Distinct
entries never agree on both, so `new_inp` is never compared. -/
def oppLt (a b : OppCand) : Bool :=
  decide (a.key.1 < b.key.1) ||
    (decide (a.key.1 = b.key.1) &&
      (decide (a.key.2 < b.key.2) ||
        (decide (a.key.2 = b.key.2) && pairLt a.pos b.pos)))

/-- The round loop of `_path_opportunistic`, with the remaining number
of rounds as fuel (`for iteration in range(len(inp) - 1)`, with `break`
modelled by stopping the recursion). -/
def pathOppAux (out : Finset Char) (d : Char → Nat) (memory : Nat) :
    Nat → List (Finset Char) → List (List Nat)
  | 0, _ => []
  | fuel + 1, sets =>
    match oppRound out d memory sets with
    | [] => [List.range sets.length]
    | c :: cs =>
      let best := pickMinBy oppLt c cs
      [best.pos.1, best.pos.2] :: pathOppAux out d memory fuel best.rem

/-- `_path_opportunistic(inp, out, ind_dict, memory)`. -/
def pathOpportunistic (inp : List (List Char)) (out : Finset Char)
    (d : Char → Nat) (memory : Nat) : List (List Nat) :=
  pathOppAux out d memory (inp.length - 1) (inp.map List.toFinset)

/-- The operands popped by the contraction loop: Python pops the indices
in descending order, so the popped elements are the entries of the
original list at those indices, largest index first.  (For the distinct,
in-range indices every planner produces this is exactly what the
sequence of `list.pop(x)` calls yields.) -/
def selectIdx (st : List Entry) (inds : List Nat) : Option (List Entry) :=
  inds.mapM (fun i => st.get? i)

/-- The operands left after popping: the entries whose position is not
among the popped ones, in their original order. -/
def removeIdx (st : List Entry) (positions : List Nat) : List Entry :=
  (List.enumFrom 0 st).filterMap
    (fun p => if p.1 ∈ positions then none else some p.2)

/-- Stable strict order on labels by `(dimension, label)`, the sort key
`sorted([(dimension_dict[ind], ind) for ind in out_inds])` uses. -/
def dimLe (d : Char → Nat) (a b : Char) : Bool :=
  decide (d a < d b) || (decide (d a = d b) && decide (a ≤ b))

/-- Insertion sort step for `sortByDim`. -/
def insertByDim (d : Char → Nat) (c : Char) : List Char → List Char
  | [] => [c]
  | x :: xs => if dimLe d c x then c :: x :: xs else x :: insertByDim d c xs

/-- Sort labels by `(dimension, label)` ascending. -/
def sortByDim (d : Char → Nat) (l : List Char) : List Char :=
  l.foldr (insertByDim d) []

/-- The label string of the intermediate built by one step of the
contraction loop of `contract` (`index_result` in the source), given the
popped terms (largest original position first).

* Scalar product (two operands, one of rank 0): the concatenation of
  both terms; nothing is summed by `np.dot` here.
* Tensordot-shaped step (`can_tdot`): the concatenation of both terms
  with the removed labels deleted.  When a term carries a repeated
  label the source first collapses it with an `np.einsum` whose output
  joins the kept and removed label sets in Python set-iteration order;
  that order is arbitrary but semantically irrelevant (only the label
  set matters from here on), so the embedding uses first-occurrence
  (`dedup`) order.  All of the source's `np.dot`/`np.tensordot`
  orientation subcases compute this same reduction in exact arithmetic;
  the transpose/reshape choices only affect memory layout.
* General `np.einsum` fallback: the result labels sorted by
  `(dimension, label)`.

A step selecting a single operand would raise an `IndexError` in Python
(`tmp_input[1]`); no planner emits such a step, and the fallback below
only matters for well-formed steps. -/
def branchTerm (d : Char → Nat) (terms : List (List Char))
    (removed newRes : Finset Char) : List Char :=
  match terms with
  | [t0, t1] =>
    if t0.length = 0 ∨ t1.length = 0 then t0 ++ t1
    else
      let tdotResult := (t0 ++ t1).filter (fun c => c ∉ removed)
      if removed ≠ ∅ ∧
          (t0.toFinset \ t1.toFinset) ∪ (t1.toFinset \ t0.toFinset) =
            tdotResult.toFinset then
        t0.dedup.filter (fun c => c ∉ removed) ++
          t1.dedup.filter (fun c => c ∉ removed)
      else sortByDim d (newRes.sort (fun a b => a ≤ b))
  | _ => sortByDim d (newRes.sort (fun a b => a ≤ b))

/-- One iteration of the contraction loop of `contract`: compute the
step's index algebra with `_find_contraction` over the live index sets,
pop the participating operands, build the new intermediate (whose exact
value is the generalized reduction of the popped operands to the branch
term), and append it.  Fails (Python `IndexError`) when a position is
out of range. -/
def execStep (d : Char → Nat) (outSet : Finset Char) (st : List Entry)
    (positions : List Nat) : Option (List Entry) :=
  let fc := findContraction positions (st.map Entry.iset) outSet
  match selectIdx st (sortDesc positions) with
  | none => none
  | some sel =>
    let nt := branchTerm d (sel.map Entry.term) fc.2.2.1 fc.1
    some (removeIdx st positions ++
      [⟨fc.1, nt, einsumVal d (sel.map Entry.term) (sel.map Entry.val) nt⟩])

/-- The whole contraction loop over a planned path. -/
def execPlan (d : Char → Nat) (outSet : Finset Char) :
    List (List Nat) → List Entry → Option (List Entry)
  | [], st => some st
  | p :: ps, st =>
    match execStep d outSet st p with
    | none => none
    | some st' => execPlan d outSet ps st'

/-- The index-set bookkeeping of one step in isolation: `input_set` is
replaced by the `remaining` component of `_find_contraction`. -/
def setsStep (outSet : Finset Char) (sets : List (Finset Char))
    (positions : List Nat) : List (Finset Char) :=
  (findContraction positions sets outSet).2.1

/-- The index-set bookkeeping of a whole planned path. -/
def setsExec (outSet : Finset Char) :
    List (List Nat) → List (Finset Char) → List (Finset Char)
  | [], sets => sets
  | p :: ps, sets => setsExec outSet ps (setsStep outSet sets p)

/-- Accumulated model cost of a plan (the cost `_path_optimal` charges:
per step, the size of the touched labels, doubled when the step
eliminates at least one label). -/
def planCostAux (out : Finset Char) (d : Char → Nat) :
    List (List Nat) → List (Finset Char) → Nat
  | [], _ => 0
  | p :: ps, sets =>
    let fc := findContraction p sets out
    let base := computeSizeF fc.2.2.2 d
    (if fc.2.2.1 = ∅ then base else 2 * base) + planCostAux out d ps fc.2.1

/-- Accumulated model cost of a plan, from the initial terms. -/
def planCost (out : Finset Char) (d : Char → Nat) (plan : List (List Nat))
    (inp : List (List Char)) : Nat :=
  planCostAux out d plan (inp.map List.toFinset)

/-- Placeholder operand (never actually read: all accesses are guarded
by range checks). -/
def dummyEntry : Entry := ⟨∅, [], fun _ => 0⟩

/-- A pair sequence of the exhaustive planner as a plan. -/
def posToPlan (pos : List (Nat × Nat)) : List (List Nat) :=
  pos.map (fun p => [p.1, p.2])

/-- The executor's state invariant.  Every operand's planner-tracked
index set is contained in its term's label set; values read only their
term's labels; and any *extra* labels a term carries beyond its tracked
set (these arise only from the scalar-product branch, which fails to
eliminate labels) occur in no other live operand's term and not in the
output — they are private to their operand and are summed away by the
final reduction. -/
def Inv (out : Finset Char) (st : List Entry) : Prop :=
  (∀ e ∈ st, e.iset ⊆ e.term.toFinset) ∧
  (∀ e ∈ st, DependsOnlyOn e.val e.term.toFinset) ∧
  (∀ e ∈ st, (e.term.toFinset \ e.iset) ∩ out = ∅) ∧
  List.Pairwise
    (fun e₁ e₂ => (e₁.term.toFinset \ e₁.iset) ∩ e₂.term.toFinset = ∅ ∧
      (e₂.term.toFinset \ e₂.iset) ∩ e₁.term.toFinset = ∅) st

/-- Validity of a plan against a running live-operand count: each step's
positions are distinct and in range, and a step over `k` positions
replaces them by one operand. -/
def StepsOK : Nat → List (List Nat) → Prop
  | _, [] => True
  | n, p :: ps => p.Nodup ∧ (∀ i ∈ p, i < n) ∧ StepsOK (n - p.length + 1) ps

/-- The live-operand count left after a plan runs. -/
def lenAfter : Nat → List (List Nat) → Nat
  | n, [] => n
  | n, p :: ps => lenAfter (n - p.length + 1) ps

/-- The candidate list of `_path_optimal` after its first `m` rounds. -/
def optCandsUpTo (inp : List (List Char)) (out : Finset Char) (d : Char → Nat)
    (memory : Nat) (m : Nat) : List Cand :=
  (List.range m).foldl
    (fun cur iteration => optRound out d memory (inp.length - iteration) cur)
    [⟨0, [], inp.map List.toFinset⟩]

/-- Errors `contract` can raise.  The first seven correspond to the
`ValueError`/`KeyError` raises in the source; `nameErrorNew` is the
`NameError` `_path_optimal` hits for fewer than two operands, and
`indexOutOfRange` an `IndexError` from popping a bad explicit path. -/
inductive CErr where
  | parseFailure
  | unsupportedExpression
  | countMismatch
  | rankMismatch (tnum : Nat)
  | labelSizeConflict (c : Char)
  | unknownLabel (c : Char)
  | unknownStrategy
  | nameErrorNew
  | indexOutOfRange
deriving DecidableEq

/-- A dense array operand: its shape and its contents, indexed by a
multi-index (row-major indexing is immaterial; the embedding keeps the
whole multi-index). -/
structure NDView where
  shape : List Nat
  data : List Nat → Int

/-- The `path` keyword of `contract`: either an explicit step list or a
strategy name. -/
inductive PathArg where
  | explicitPath (p : List (List Nat))
  | named (s : List Char)

/-- Substring test for the two-character arrow separator. -/
def hasArrow : List Char → Bool
  | [] => false
  | '-' :: '>' :: _ => true
  | _ :: rest => hasArrow rest

/-- `string.split('->')`: split on each non-overlapping leftmost
occurrence of the arrow. -/
def splitArrow : List Char → List (List Char)
  | [] => [[]]
  | '-' :: '>' :: rest => [] :: splitArrow rest
  | c :: rest =>
    match splitArrow rest with
    | [] => [[c]]
    | h :: t => (c :: h) :: t

/-- `string.split(',')`. -/
def splitComma : List Char → List (List Char)
  | [] => [[]]
  | ',' :: rest => [] :: splitComma rest
  | c :: rest =>
    match splitComma rest with
    | [] => [[c]]
    | h :: t => (c :: h) :: t

/-- The implicit output `contract` builds when the expression has no
`'->'`: every label occurring exactly once in the comma-stripped
expression, in sorted label order. -/
def inferOutput (s : List Char) : List Char :=
  let tmp := s.filter (fun c => c ≠ ',')
  (tmp.toFinset.sort (fun a b => a ≤ b)).filter (fun c => tmp.count c = 1)

/-- Lines 175-184 of the source: split the expression at `'->'` if
present (a `ValueError` if that does not leave exactly two pieces),
otherwise infer the output labels. -/
def parseEinsum (s : List Char) : Except CErr (List Char × List Char) :=
  match splitArrow s with
  | [i] => .ok (i, inferOutput i)
  | [i, o] => .ok (i, o)
  | _ => .error CErr.parseFailure

/-- Linear lookup in the dimension table being built. -/
def lookupDim (acc : List (Char × Nat)) (c : Char) : Option Nat :=
  (acc.find? (fun p => decide (p.1 = c))).map Prod.snd

/-- Walk one term against its operand's shape, recording each label's
dimension and raising on a conflicting size. -/
def addDims : List Char → List Nat → List (Char × Nat) →
    Except CErr (List (Char × Nat))
  | [], _, acc => .ok acc
  | c :: cs, dim :: dims, acc =>
    match lookupDim acc c with
    | some dprev =>
      if dprev ≠ dim then .error (CErr.labelSizeConflict c) else addDims cs dims acc
    | none => addDims cs dims (acc ++ [(c, dim)])
  | _ :: _, [], acc => .ok acc

/-- Lines 204-216: check each operand's rank against its term and build
the dimension table.  (The final clause of `addDims` and the case of
more terms than views are unreachable: ranks and counts are checked.) -/
def buildDims : Nat → List (List Char) → List NDView → List (Char × Nat) →
    Except CErr (List (Char × Nat))
  | _, [], _, acc => .ok acc
  | tnum, term :: terms, v :: vs, acc =>
    if v.shape.length ≠ term.length then .error (CErr.rankMismatch tnum)
    else
      match addDims term v.shape acc with
      | .error e => .error e
      | .ok acc' => buildDims (tnum + 1) terms vs acc'
  | _, _ :: _, [], acc => .ok acc

/-- The dimension table as a total function (validation guarantees every
label that is ever looked up afterwards is present). -/
def dimFn (acc : List (Char × Nat)) : Char → Nat :=
  fun c => (lookupDim acc c).getD 0

/-- `_compute_size` with the Python `KeyError` made explicit, for the
`size_list` computation (only the output term can contain an unknown
label there). -/
def computeSizeE (acc : List (Char × Nat)) : List Char → Nat → Except CErr Nat
  | [], ret => .ok ret
  | c :: cs, ret =>
    match lookupDim acc c with
    | none => .error (CErr.unknownLabel c)
    | some dc => computeSizeE acc cs (ret * dc)

/-- The initial live operand list: terms, their label sets, and the
array values in assignment semantics (`term.map σ` indexes the raw
array, so a repeated label reads the diagonal as `np.einsum` does). -/
def buildState (terms : List (List Char)) (views : List NDView) : List Entry :=
  (terms.zip views).map (fun p => ⟨p.1.toFinset, p.1, fun σ => p.2.data (p.1.map σ)⟩)

/-- Lines 244-256 of the source: select the contraction path.  An
explicit list is used as is; two operands short-circuit to `[(0, 1)]`;
`"opportunistic"` runs the greedy planner with the ceiling clamped to
`min(memory_arg, out_size)`; `"optimal"` runs the exhaustive planner
with `memory_arg` unclamped; any other name raises `KeyError`. -/
def chosenPath (inputList : List (List Char)) (outputSet : Finset Char)
    (d : Char → Nat) (pathArg : PathArg) (memoryArg outSize : Nat) :
    Except CErr (List (List Nat)) :=
  match pathArg with
  | .explicitPath p => Except.ok p
  | .named nm =>
    if inputList.length = 2 then Except.ok [[0, 1]]
    else if nm = "opportunistic".toList then
      Except.ok (pathOpportunistic inputList outputSet d (min memoryArg outSize))
    else if nm = "optimal".toList then
      match pathOptimal inputList outputSet d memoryArg with
      | some p => Except.ok p
      | none => Except.error CErr.nameErrorNew
    else Except.error CErr.unknownStrategy

/-- `contract(string, *views, path=pathArg, memory=memoryKw)` with the
remaining keywords at their defaults (`debug=False`, `tensordot=True`,
`return_path=False`).  The generalized reductions delegated to
`np.einsum`/`np.dot`/`np.tensordot` are modelled exactly over `Int`
(`einsumVal`); their subscript-charset validation is not modelled. -/
def contract (s : List Char) (views : List NDView) (pathArg : PathArg)
    (memoryKw : Option Nat) : Except CErr Val :=
  match parseEinsum s with
  | .error e => .error e
  | .ok (inputString, outputString) =>
    if '.' ∈ inputString ∨ '.' ∈ outputString then
      .error CErr.unsupportedExpression
    else if (splitComma inputString).length ≠ views.length then
      .error CErr.countMismatch
    else
      match buildDims 0 (splitComma inputString) views [] with
      | .error e => .error e
      | .ok dims =>
        match (splitComma inputString ++ [outputString]).mapM
            (fun t => computeSizeE dims t 1) with
        | .error e => .error e
        | .ok sizeList =>
          if computeSizeF (inputString.filter (fun c => c ≠ ',')).toFinset
              (dimFn dims) < 1000000 then
            .ok (einsumVal (dimFn dims) (splitComma inputString)
              ((buildState (splitComma inputString) views).map Entry.val)
              outputString)
          else if (inputString.filter (fun c => c ≠ ',')).toFinset =
              outputString.toFinset then
            .ok (einsumVal (dimFn dims) (splitComma inputString)
              ((buildState (splitComma inputString) views).map Entry.val)
              outputString)
          else
            match chosenPath (splitComma inputString) outputString.toFinset
                (dimFn dims) pathArg (memoryKw.getD (sizeList.foldl max 0))
                (sizeList.foldl max 0) with
            | .error e => .error e
            | .ok path =>
              match execPlan (dimFn dims) outputString.toFinset path
                  (buildState (splitComma inputString) views) with
              | none => .error CErr.indexOutOfRange
              | some [] => .error CErr.indexOutOfRange
              | some (e :: _) =>
                if e.term = outputString then .ok e.val
                else .ok (einsumVal (dimFn dims) [e.term] [e.val] outputString)

section FcCharacterization

/-- The list of sets selected by `positions`, starting the enumeration at
offset `i`. -/
def selectedFrom (positions : List Nat) (i : Nat) (sets : List (Finset Char)) :
    List (Finset Char) :=
  (List.enumFrom i sets).filterMap
    (fun p => if p.1 ∈ positions then some p.2 else none)

/-- The list of sets not selected by `positions`, starting at offset `i`. -/
def unselectedFrom (positions : List Nat) (i : Nat) (sets : List (Finset Char)) :
    List (Finset Char) :=
  (List.enumFrom i sets).filterMap
    (fun p => if p.1 ∈ positions then none else some p.2)

theorem fcAux_eq (positions : List Nat) :
    ∀ (i : Nat) (sets : List (Finset Char)),
      fcAux positions i sets =
        (listUnion (selectedFrom positions i sets),
         listUnion (unselectedFrom positions i sets),
         unselectedFrom positions i sets) := by
  intro i sets
  induction sets generalizing i with
  | nil => simp [fcAux, selectedFrom, unselectedFrom, listUnion]
  | cons s rest ih =>
    simp only [fcAux, ih (i + 1), selectedFrom, unselectedFrom, List.enumFrom_cons,
      List.filterMap_cons]
    by_cases h : i ∈ positions <;> simp [h, listUnion]

theorem mem_listUnion {c : Char} {l : List (Finset Char)} :
    c ∈ listUnion l ↔ ∃ s ∈ l, c ∈ s := by
  induction l with
  | nil => simp [listUnion]
  | cons s rest ih =>
    simp only [listUnion, List.foldr_cons, Finset.mem_union] at *
    constructor
    · rintro (h | h)
      · exact ⟨s, List.mem_cons_self _ _, h⟩
      · obtain ⟨t, ht, hc⟩ := ih.mp h
        exact ⟨t, List.mem_cons_of_mem _ ht, hc⟩
    · rintro ⟨t, ht, hc⟩
      rcases List.mem_cons.mp ht with rfl | ht
      · exact Or.inl hc
      · exact Or.inr (ih.mpr ⟨t, ht, hc⟩)

theorem mem_selectedUnion {c : Char} {positions : List Nat}
    {sets : List (Finset Char)} :
    c ∈ listUnion (selectedFrom positions 0 sets) ↔
      ∃ i, ∃ h : i < sets.length, i ∈ positions ∧ c ∈ sets.get ⟨i, h⟩ := by
  rw [mem_listUnion]
  simp only [selectedFrom, List.mem_filterMap, List.exists_mem_enumFrom, Nat.zero_add]
  constructor
  · rintro ⟨s, ⟨i, hi, hsel⟩, hc⟩
    by_cases hp : i ∈ positions
    · obtain rfl : sets[i] = s := by simpa [hp] using hsel
      exact ⟨i, hi, hp, by simpa [List.get_eq_getElem] using hc⟩
    · simp [hp] at hsel
  · rintro ⟨i, hi, hp, hc⟩
    exact ⟨sets.get ⟨i, hi⟩, ⟨i, hi, by simp [hp, List.get_eq_getElem]⟩, hc⟩

theorem mem_unselectedUnion {c : Char} {positions : List Nat}
    {sets : List (Finset Char)} :
    c ∈ listUnion (unselectedFrom positions 0 sets) ↔
      ∃ i, ∃ h : i < sets.length, i ∉ positions ∧ c ∈ sets.get ⟨i, h⟩ := by
  rw [mem_listUnion]
  simp only [unselectedFrom, List.mem_filterMap, List.exists_mem_enumFrom, Nat.zero_add]
  constructor
  · rintro ⟨s, ⟨i, hi, hsel⟩, hc⟩
    by_cases hp : i ∈ positions
    · simp [hp] at hsel
    · obtain rfl : sets[i] = s := by simpa [hp] using hsel
      exact ⟨i, hi, hp, by simpa [List.get_eq_getElem] using hc⟩
  · rintro ⟨i, hi, hp, hc⟩
    exact ⟨sets.get ⟨i, hi⟩, ⟨i, hi, by simp [hp, List.get_eq_getElem]⟩, hc⟩

end FcCharacterization

/-- Claim C3: `_find_contraction(positions, input_sets, output_set)` returns
`result_labels` = (output labels ∪ union of labels of non-selected operands)
∩ (union of labels of selected operands); `remaining_terms` = the
non-selected operand label sets in order with `result_labels` appended
last; `eliminated_labels` = the labels touched by the selected operands
minus `result_labels`; and `touched_labels` = the union of the labels of
the selected operands.  The final two conjuncts pin down the selected and
non-selected unions elementwise. -/
theorem c3_find_contraction_spec (positions : List Nat)
    (inputSets : List (Finset Char)) (outputSet : Finset Char) :
    (findContraction positions inputSets outputSet =
      ((outputSet ∪ listUnion (unselectedFrom positions 0 inputSets)) ∩
          listUnion (selectedFrom positions 0 inputSets),
        unselectedFrom positions 0 inputSets ++
          [(outputSet ∪ listUnion (unselectedFrom positions 0 inputSets)) ∩
            listUnion (selectedFrom positions 0 inputSets)],
        listUnion (selectedFrom positions 0 inputSets) \
          ((outputSet ∪ listUnion (unselectedFrom positions 0 inputSets)) ∩
            listUnion (selectedFrom positions 0 inputSets)),
        listUnion (selectedFrom positions 0 inputSets))) ∧
    (∀ c : Char, c ∈ listUnion (selectedFrom positions 0 inputSets) ↔
      ∃ i, ∃ h : i < inputSets.length, i ∈ positions ∧ c ∈ inputSets.get ⟨i, h⟩) ∧
    (∀ c : Char, c ∈ listUnion (unselectedFrom positions 0 inputSets) ↔
      ∃ i, ∃ h : i < inputSets.length, i ∉ positions ∧ c ∈ inputSets.get ⟨i, h⟩) := by
  refine ⟨?_, fun c => mem_selectedUnion, fun c => mem_unselectedUnion⟩
  simp [findContraction, fcAux_eq]

theorem sumOver_ext {d : Char → Nat} {f g : Val} (h : ∀ τ, f τ = g τ) :
    ∀ (ls : List Char) (σ : Char → Nat), sumOver d ls f σ = sumOver d ls g σ := by
  intro ls
  induction ls with
  | nil => intro σ; exact h σ
  | cons l ls ih =>
    intro σ
    simp only [sumOver]
    exact Finset.sum_congr rfl (fun i _ => ih _)

theorem sumOver_update_mem {d : Char → Nat} {l : Char} :
    ∀ {ls : List Char}, l ∈ ls → ∀ (f : Val) (σ : Char → Nat) (i : Nat),
      sumOver d ls f (Function.update σ l i) = sumOver d ls f σ := by
  intro ls
  induction ls with
  | nil => intro h; cases h
  | cons a ls ih =>
    intro hmem f σ i
    simp only [sumOver]
    rcases List.mem_cons.mp hmem with rfl | hl
    · exact Finset.sum_congr rfl (fun j _ => by rw [Function.update_idem])
    · refine Finset.sum_congr rfl (fun j _ => ?_)
      by_cases hal : a = l
      · subst hal; rw [Function.update_idem]
      · rw [Function.update_comm (fun h => hal h.symm), ih hl]

theorem sumOver_update_indep {d : Char → Nat} {l : Char} {f : Val}
    (hf : ∀ (σ : Char → Nat) (i : Nat), f (Function.update σ l i) = f σ) :
    ∀ (ls : List Char) (σ : Char → Nat) (i : Nat),
      sumOver d ls f (Function.update σ l i) = sumOver d ls f σ := by
  intro ls
  induction ls with
  | nil => intro σ i; exact hf σ i
  | cons a ls ih =>
    intro σ i
    simp only [sumOver]
    refine Finset.sum_congr rfl (fun j _ => ?_)
    by_cases hal : a = l
    · subst hal; rw [Function.update_idem]
    · rw [Function.update_comm (fun h => hal h.symm), ih]

theorem sumOver_append {d : Char → Nat} (f : Val) :
    ∀ (ls₁ ls₂ : List Char) (σ : Char → Nat),
      sumOver d (ls₁ ++ ls₂) f σ = sumOver d ls₁ (sumOver d ls₂ f) σ := by
  intro ls₁
  induction ls₁ with
  | nil => intro ls₂ σ; rfl
  | cons a ls ih =>
    intro ls₂ σ
    simp only [List.cons_append, sumOver]
    exact Finset.sum_congr rfl (fun j _ => ih _ _)

theorem sumOver_perm {d : Char → Nat} (f : Val) :
    ∀ {ls ls' : List Char}, ls.Perm ls' → ∀ (σ : Char → Nat),
      sumOver d ls f σ = sumOver d ls' f σ := by
  intro ls ls' hperm
  induction hperm with
  | nil => intro σ; rfl
  | cons a _ ih =>
    intro σ
    simp only [sumOver]
    exact Finset.sum_congr rfl (fun j _ => ih _)
  | swap a b l =>
    intro σ
    simp only [sumOver]
    by_cases hab : b = a
    · subst hab
      simp only [Function.update_idem, Finset.sum_const]
    · rw [Finset.sum_comm]
      refine Finset.sum_congr rfl (fun j _ => Finset.sum_congr rfl (fun i _ => ?_))
      rw [Function.update_comm hab]
  | trans _ _ ih₁ ih₂ =>
    intro σ
    rw [ih₁ σ, ih₂ σ]

theorem termsUnion_cons (t : List Char) (ts : List (List Char)) :
    termsUnion (t :: ts) = t.toFinset ∪ termsUnion ts := by
  simp [termsUnion, List.toFinset_append]

theorem termsUnion_append (a b : List (List Char)) :
    termsUnion (a ++ b) = termsUnion a ∪ termsUnion b := by
  induction a with
  | nil => simp [termsUnion]
  | cons t ts ih => simp [termsUnion_cons, ih, Finset.union_assoc]

theorem termsUnion_perm : ∀ {ts ts' : List (List Char)}, ts.Perm ts' →
    termsUnion ts = termsUnion ts' := by
  intro ts ts' h
  induction h with
  | nil => rfl
  | cons t _ ih => rw [termsUnion_cons, termsUnion_cons, ih]
  | swap a b l =>
    rw [termsUnion_cons, termsUnion_cons, termsUnion_cons, termsUnion_cons,
      ← Finset.union_assoc, ← Finset.union_assoc, Finset.union_comm b.toFinset]
  | trans _ _ ih₁ ih₂ => rw [ih₁, ih₂]

theorem mem_termsUnion {c : Char} {ts : List (List Char)} :
    c ∈ termsUnion ts ↔ ∃ t ∈ ts, c ∈ t := by
  induction ts with
  | nil => simp [termsUnion]
  | cons t rest ih => simp [termsUnion_cons, ih]

theorem mem_summedLabels {c : Char} {ts : List (List Char)}
    {outT : List Char} :
    c ∈ summedLabels ts outT ↔ c ∈ termsUnion ts ∧ c ∉ outT.toFinset := by
  simp [summedLabels, Finset.mem_sort, Finset.mem_sdiff]

theorem prodVals_append (a b : List Val) (σ : Char → Nat) :
    prodVals (a ++ b) σ = prodVals a σ * prodVals b σ := by
  simp [prodVals]

theorem prodVals_cons (v : Val) (vs : List Val) (σ : Char → Nat) :
    prodVals (v :: vs) σ = v σ * prodVals vs σ := by
  simp [prodVals]

theorem prodVals_singleton (v : Val) (σ : Char → Nat) :
    prodVals [v] σ = v σ := by
  simp [prodVals]

theorem prodVals_perm {a b : List Val} (h : a.Perm b) (σ : Char → Nat) :
    prodVals a σ = prodVals b σ :=
  List.Perm.prod_eq (h.map (fun v => v σ))

theorem prodVals_indep {pairs : List (List Char × Val)} {c : Char}
    (hdep : ∀ p ∈ pairs, DependsOnlyOn p.2 p.1.toFinset)
    (hc : c ∉ termsUnion (pairs.map Prod.fst)) :
    ∀ (σ : Char → Nat) (i : Nat),
      prodVals (pairs.map Prod.snd) (Function.update σ c i) =
        prodVals (pairs.map Prod.snd) σ := by
  intro σ i
  simp only [prodVals]
  congr 1
  refine List.map_congr_left (fun v hv => ?_)
  obtain ⟨p, hp, rfl⟩ := List.mem_map.mp hv
  refine hdep p hp σ c i (fun hmem => hc ?_)
  exact mem_termsUnion.mpr ⟨p.1, List.mem_map_of_mem _ hp, List.mem_toFinset.mp hmem⟩

theorem sumOver_mul_left {d : Char → Nat} {g h : Val} :
    ∀ (ls : List Char),
      (∀ c ∈ ls, ∀ (σ : Char → Nat) (i : Nat), g (Function.update σ c i) = g σ) →
      ∀ (σ : Char → Nat),
        sumOver d ls (fun τ => g τ * h τ) σ = g σ * sumOver d ls h σ := by
  intro ls
  induction ls with
  | nil => intro _ σ; rfl
  | cons a ls ih =>
    intro hg σ
    simp only [sumOver, Finset.mul_sum]
    refine Finset.sum_congr rfl (fun j _ => ?_)
    rw [ih (fun c hc => hg c (List.mem_cons_of_mem _ hc)),
      hg a (List.mem_cons_self _ _)]

theorem einsumVal_pairs_perm {d : Char → Nat} {pairs pairs' : List (List Char × Val)}
    (h : pairs.Perm pairs') (outT : List Char) (σ : Char → Nat) :
    einsumVal d (pairs.map Prod.fst) (pairs.map Prod.snd) outT σ =
      einsumVal d (pairs'.map Prod.fst) (pairs'.map Prod.snd) outT σ := by
  have hterms : termsUnion (pairs.map Prod.fst) = termsUnion (pairs'.map Prod.fst) :=
    termsUnion_perm (h.map Prod.fst)
  simp only [einsumVal, summedLabels, hterms]
  exact sumOver_ext (fun τ => prodVals_perm (h.map Prod.snd) τ) _ _

theorem einsumVal_depends {d : Char → Nat} {pairs : List (List Char × Val)}
    (hdep : ∀ p ∈ pairs, DependsOnlyOn p.2 p.1.toFinset) (outT : List Char) :
    DependsOnlyOn (einsumVal d (pairs.map Prod.fst) (pairs.map Prod.snd) outT)
      outT.toFinset := by
  intro σ c i hc
  by_cases hu : c ∈ termsUnion (pairs.map Prod.fst)
  · exact sumOver_update_mem (mem_summedLabels.mpr ⟨hu, hc⟩) _ _ _
  · exact sumOver_update_indep (prodVals_indep hdep hu) _ _ _

theorem einsumVal_self {d : Char → Nat} {t outT : List Char} (v : Val)
    (h : t.toFinset ⊆ outT.toFinset) (σ : Char → Nat) :
    einsumVal d [t] [v] outT σ = v σ := by
  have hempty : termsUnion [t] \ outT.toFinset = ∅ := by
    rw [termsUnion_cons]
    simp only [termsUnion, List.foldr_nil, List.toFinset_nil, Finset.union_empty]
    exact Finset.sdiff_eq_empty_iff_subset.mpr h
  simp [einsumVal, summedLabels, hempty, sumOver, prodVals]

theorem sdiff_decomp_disjoint {uR uS nS O : Finset Char}
    (hsup : uS ∩ (O ∪ uR) ⊆ nS) :
    Disjoint ((uR ∪ nS) \ O) (uS \ nS) := by
  rw [Finset.disjoint_left]
  intro c hcA hcB
  rw [Finset.mem_sdiff, Finset.mem_union] at hcA
  rw [Finset.mem_sdiff] at hcB
  rcases hcA.1 with hcr | hcn
  · exact hcB.2 (hsup (Finset.mem_inter.mpr ⟨hcB.1, Finset.mem_union_right _ hcr⟩))
  · exact hcB.2 hcn

theorem sdiff_decomp_union {uR uS nS O : Finset Char} (hsub : nS ⊆ uS)
    (hsup : uS ∩ (O ∪ uR) ⊆ nS) :
    ((uR ∪ nS) \ O) ∪ (uS \ nS) = (uR ∪ uS) \ O := by
  apply Finset.ext
  intro c
  simp only [Finset.mem_union, Finset.mem_sdiff]
  constructor
  · rintro (⟨hcu, hco⟩ | ⟨hcs, hcn⟩)
    · rcases hcu with hcr | hcn
      · exact ⟨Or.inl hcr, hco⟩
      · exact ⟨Or.inr (hsub hcn), hco⟩
    · refine ⟨Or.inr hcs, fun hco => hcn ?_⟩
      exact hsup (Finset.mem_inter.mpr ⟨hcs, Finset.mem_union_left _ hco⟩)
  · rintro ⟨hcr | hcs, hco⟩
    · exact Or.inl ⟨Or.inl hcr, hco⟩
    · by_cases hcn : c ∈ nS
      · exact Or.inl ⟨Or.inr hcn, hco⟩
      · exact Or.inr ⟨hcs, hcn⟩

theorem sort_union_perm {A B : Finset Char} (hdisj : Disjoint A B) :
    ((A ∪ B).sort (fun a b => a ≤ b)).Perm
      (A.sort (fun a b => a ≤ b) ++ B.sort (fun a b => a ≤ b)) := by
  apply List.perm_of_nodup_nodup_toFinset_eq (Finset.sort_nodup _ _)
  · rw [List.nodup_append]
    refine ⟨Finset.sort_nodup _ _, Finset.sort_nodup _ _, ?_⟩
    intro a ha hb
    rw [Finset.mem_sort] at ha hb
    exact (Finset.disjoint_left.mp hdisj ha) hb
  · rw [List.toFinset_append, Finset.sort_toFinset, Finset.sort_toFinset,
      Finset.sort_toFinset]

/-- The step-preservation core: replacing the selected operands `sel` by
a single fused operand whose term is `nt` and whose value is the
generalized reduction of `sel` to `nt` does not change the meaning of
the operand list, provided `nt` keeps (at least) every label the
selected operands share with the output or with the remaining operands,
and introduces no label foreign to the selected operands. -/
theorem fuse_preserves_meaning {d : Char → Nat}
    {rest sel : List (List Char × Val)} {nt out : List Char}
    (hdepR : ∀ p ∈ rest, DependsOnlyOn p.2 p.1.toFinset)
    (hsub : nt.toFinset ⊆ termsUnion (sel.map Prod.fst))
    (hsup : termsUnion (sel.map Prod.fst) ∩
        (out.toFinset ∪ termsUnion (rest.map Prod.fst)) ⊆ nt.toFinset)
    (σ : Char → Nat) :
    einsumVal d (rest.map Prod.fst ++ [nt])
        (rest.map Prod.snd ++ [einsumVal d (sel.map Prod.fst) (sel.map Prod.snd) nt])
        out σ =
      einsumVal d (rest.map Prod.fst ++ sel.map Prod.fst)
        (rest.map Prod.snd ++ sel.map Prod.snd) out σ := by
  have hdisj := sdiff_decomp_disjoint (O := out.toFinset) hsup
  have hunion := sdiff_decomp_union hsub hsup
  have hsummL : summedLabels (rest.map Prod.fst ++ [nt]) out =
      ((termsUnion (rest.map Prod.fst) ∪ nt.toFinset) \ out.toFinset).sort
        (fun a b => a ≤ b) := by
    rw [summedLabels, termsUnion_append, termsUnion_cons]
    simp [termsUnion]
  have hsummR : summedLabels (rest.map Prod.fst ++ sel.map Prod.fst) out =
      ((termsUnion (rest.map Prod.fst) ∪ termsUnion (sel.map Prod.fst)) \
        out.toFinset).sort (fun a b => a ≤ b) := by
    rw [summedLabels, termsUnion_append]
  have hsummS : summedLabels (sel.map Prod.fst) nt =
      (termsUnion (sel.map Prod.fst) \ nt.toFinset).sort (fun a b => a ≤ b) := rfl
  have hperm := sort_union_perm hdisj
  rw [hunion] at hperm
  -- rewrite the right-hand side into nested sums over the decomposition
  simp only [einsumVal]
  rw [hsummL, hsummR, hsummS]
  rw [sumOver_perm (prodVals (rest.map Prod.snd ++ sel.map Prod.snd)) hperm,
    sumOver_append]
  refine sumOver_ext (fun τ => ?_) _ _
  rw [prodVals_append, prodVals_singleton]
  have hmul : ∀ τ', prodVals (rest.map Prod.snd ++ sel.map Prod.snd) τ' =
      prodVals (rest.map Prod.snd) τ' * prodVals (sel.map Prod.snd) τ' :=
    fun τ' => prodVals_append _ _ τ'
  rw [sumOver_ext hmul]
  rw [sumOver_mul_left]
  intro c hc σ' i
  rw [Finset.mem_sort, Finset.mem_sdiff] at hc
  have hcr : c ∉ termsUnion (rest.map Prod.fst) := fun hm =>
    hc.2 (hsup (Finset.mem_inter.mpr ⟨hc.1, Finset.mem_union_right _ hm⟩))
  simp only [prodVals]
  congr 1
  refine List.map_congr_left (fun v hv => ?_)
  obtain ⟨p, hp, rfl⟩ := List.mem_map.mp hv
  refine hdepR p hp σ' c i (fun hmem => hcr ?_)
  exact mem_termsUnion.mpr ⟨p.1, List.mem_map_of_mem _ hp, List.mem_toFinset.mp hmem⟩

theorem pathOptimal_isSome {inp : List (List Char)} {out : Finset Char}
    {d : Char → Nat} {memory : Nat} (h2 : 2 ≤ inp.length) :
    (pathOptimal inp out d memory).isSome = true := by
  rw [pathOptimal, if_neg (by omega)]
  cases optCands inp out d memory <;> simp

/-- Claim C6 (corrected): whenever the memory ceiling prunes every
candidate — every complete candidate for the exhaustive strategy, every
pair of a round for the greedy strategy — the planner returns a plan
ending in a single step contracting all remaining live positions instead
of raising, and (for at least two operands) the exhaustive planner never
fails.  The amendment: with a single operand the exhaustive planner does
fail (its round loop never runs and the Python code hits an unbound
local, a `NameError`), so the no-failure guarantee needs at least two
operands. -/
theorem c6_pruned_fallback :
    (∀ (inp : List (List Char)) (out : Finset Char) (d : Char → Nat) (memory : Nat),
      2 ≤ inp.length → optCands inp out d memory = [] →
      pathOptimal inp out d memory = some [List.range inp.length]) ∧
    (∀ (out : Finset Char) (d : Char → Nat) (memory : Nat)
      (sets : List (Finset Char)) (fuel : Nat),
      oppRound out d memory sets = [] →
      pathOppAux out d memory (fuel + 1) sets = [List.range sets.length]) ∧
    (∀ (inp : List (List Char)) (out : Finset Char) (d : Char → Nat) (memory : Nat),
      2 ≤ inp.length → (pathOptimal inp out d memory).isSome = true) := by
  refine ⟨?_, ?_, fun inp out d memory h2 => pathOptimal_isSome h2⟩
  · intro inp out d memory h2 hcands
    rw [pathOptimal, if_neg (by omega), hcands]
  · intro out d memory sets fuel hround
    simp only [pathOppAux, hround]

/-- Counterexample to claim C6 as stated: a validated single-operand
expression reaches the exhaustive planner (for example
`contract("ij->i", big_view, path="optimal")`), and planning fails with
a `NameError` instead of returning a plan. -/
theorem c6_counterexample :
    pathOptimal [['i', 'j']] ({'i'} : Finset Char) (fun _ => 1000) 1000000 = none := by
  rfl

/-- Witness for claim C6: with two disjoint rank-1 operands and memory
ceiling 0 every candidate is pruned, and both strategies fall back to
the single full-width step `[0, 1]`. -/
theorem c6_witness :
    (2 ≤ ([['a'], ['b']] : List (List Char)).length ∧
      optCands [['a'], ['b']] (∅ : Finset Char) (fun _ => 2) 0 = [] ∧
      pathOptimal [['a'], ['b']] (∅ : Finset Char) (fun _ => 2) 0 =
        some [List.range 2]) ∧
    (oppRound (∅ : Finset Char) (fun _ => 2) 0 [{'a'}, {'b'}] = [] ∧
      pathOppAux (∅ : Finset Char) (fun _ => 2) 0 1 [{'a'}, {'b'}] =
        [List.range 2]) ∧
    (pathOptimal [['a'], ['b']] (∅ : Finset Char) (fun _ => 2) 0).isSome = true := by
  refine ⟨⟨by decide, by decide, ?_⟩, ⟨by decide, ?_⟩, ?_⟩
  · exact c6_pruned_fallback.1 _ _ _ _ (by decide) (by decide)
  · exact c6_pruned_fallback.2.1 _ _ _ _ 0 (by decide)
  · exact c6_pruned_fallback.2.2 _ _ _ _ (by decide)

/-- Claim C8 (corrected): with no caller-supplied ceiling the planning
ceiling is `out_size` (the maximum of the operand and output sizes) for
both strategies; with a supplied ceiling `m` the exhaustive strategy
uses `m`, but the greedy strategy uses `min m out_size` — the source
clamps the opportunistic ceiling to at most `out_size` ("Maximum memory
is an important variable here, should be at most out_size"), so a
supplied value larger than `out_size` is not the ceiling used. -/
theorem c8_planning_ceiling :
    (∀ (inp : List (List Char)) (out : Finset Char) (d : Char → Nat) (outSize : Nat),
      inp.length ≠ 2 →
      chosenPath inp out d (PathArg.named "opportunistic".toList) outSize outSize =
        Except.ok (pathOpportunistic inp out d outSize) ∧
      (2 ≤ inp.length →
        ∃ p, pathOptimal inp out d outSize = some p ∧
          chosenPath inp out d (PathArg.named "optimal".toList) outSize outSize =
            Except.ok p)) ∧
    (∀ (inp : List (List Char)) (out : Finset Char) (d : Char → Nat) (m outSize : Nat),
      inp.length ≠ 2 →
      chosenPath inp out d (PathArg.named "opportunistic".toList) m outSize =
        Except.ok (pathOpportunistic inp out d (min m outSize)) ∧
      (2 ≤ inp.length →
        ∃ p, pathOptimal inp out d m = some p ∧
          chosenPath inp out d (PathArg.named "optimal".toList) m outSize =
            Except.ok p)) := by
  have main : ∀ (inp : List (List Char)) (out : Finset Char) (d : Char → Nat)
      (m outSize : Nat), inp.length ≠ 2 →
      chosenPath inp out d (PathArg.named "opportunistic".toList) m outSize =
        Except.ok (pathOpportunistic inp out d (min m outSize)) ∧
      (2 ≤ inp.length →
        ∃ p, pathOptimal inp out d m = some p ∧
          chosenPath inp out d (PathArg.named "optimal".toList) m outSize =
            Except.ok p) := by
    intro inp out d m outSize hlen
    constructor
    · rw [chosenPath, if_neg hlen, if_pos rfl]
    · intro h2
      obtain ⟨p, hp⟩ := Option.isSome_iff_exists.mp (pathOptimal_isSome h2)
      refine ⟨p, hp, ?_⟩
      rw [chosenPath, if_neg hlen, if_neg (by decide), if_pos rfl, hp]
  refine ⟨fun inp out d outSize hlen => ?_, main⟩
  have h := main inp out d outSize outSize hlen
  rwa [Nat.min_self] at h

/-- Counterexample to claim C8 as stated: three operands `ad, bd, cd`
with `|a| = |b| = |c| = 100`, `|d| = 10000`, output `abc`
(`out_size = 10^6`), and caller-supplied ceiling `10^9`.  Had the greedy
planner used the supplied ceiling it would pick two pairwise steps, but
`contract` clamps the ceiling to `out_size`, every pair is pruned, and
the plan degrades to the single full-width step. -/
theorem c8_counterexample :
    chosenPath ["ad".toList, "bd".toList, "cd".toList] ("abc".toList).toFinset
        (fun c => if c = 'd' then 10000 else 100)
        (PathArg.named "opportunistic".toList) 1000000000 1000000 =
      Except.ok [[0, 1, 2]] ∧
    pathOpportunistic ["ad".toList, "bd".toList, "cd".toList] ("abc".toList).toFinset
        (fun c => if c = 'd' then 10000 else 100) 1000000000 =
      [[0, 1], [0, 1]] := by
  constructor
  · rfl
  · decide

/-- Witness for claim C8 at a concrete instance of the supplied-ceiling
case. -/
theorem c8_witness :
    chosenPath [['a'], ['b'], ['c']] (∅ : Finset Char) (fun _ => 2)
        (PathArg.named "opportunistic".toList) 7 5 =
      Except.ok (pathOpportunistic [['a'], ['b'], ['c']] (∅ : Finset Char)
        (fun _ => 2) (min 7 5)) :=
  (c8_planning_ceiling.2 [['a'], ['b'], ['c']] ∅ (fun _ => 2) 7 5 (by decide)).1

theorem mem_triuPairs {n i j : Nat} :
    (i, j) ∈ triuPairs n ↔ i < j ∧ j < n := by
  simp only [triuPairs, List.mem_flatMap, List.mem_map, List.mem_range]
  constructor
  · rintro ⟨a, ha, b, hb, heq⟩
    have h1 : a = i := congrArg Prod.fst heq
    have h2 : b = j := congrArg Prod.snd heq
    subst h1
    subst h2
    have hb' := List.mem_of_mem_drop hb
    rw [List.mem_range] at hb'
    have hlow : ∀ x ∈ (List.range n).drop (a + 1), a + 1 ≤ x := by
      intro x hx
      obtain ⟨k, hk, rfl⟩ := List.mem_iff_getElem.mp hx
      rw [List.getElem_drop, List.getElem_range]
      omega
    exact ⟨hlow _ hb, hb'⟩
  · rintro ⟨hij, hjn⟩
    refine ⟨i, by omega, j, ?_, rfl⟩
    have hlen : i + 1 ≤ (List.range n).length := by simp; omega
    rw [List.mem_iff_getElem]
    refine ⟨j - (i + 1), ?_, ?_⟩
    · simp only [List.length_drop, List.length_range]
      omega
    · rw [List.getElem_drop, List.getElem_range]
      omega

theorem pickMinBy_mem (lt : α → α → Bool) :
    ∀ (x : α) (ys : List α), pickMinBy lt x ys ∈ x :: ys := by
  intro x ys
  induction ys generalizing x with
  | nil => simp [pickMinBy]
  | cons y ys ih =>
    rw [pickMinBy]
    by_cases h : lt y x = true
    · simp only [h, if_true]
      rcases List.mem_cons.mp (ih y) with h' | h'
      · rw [h']
        exact List.mem_cons_of_mem _ (List.mem_cons_self _ _)
      · exact List.mem_cons_of_mem _ (List.mem_cons_of_mem _ h')
    · rw [Bool.not_eq_true] at h
      simp only [h, Bool.false_eq_true, if_false]
      rcases List.mem_cons.mp (ih x) with h' | h'
      · rw [h']
        exact List.mem_cons_self _ _
      · exact List.mem_cons_of_mem _ (List.mem_cons_of_mem _ h')

theorem pickMinBy_not_lt (lt : α → α → Bool)
    (htrans : ∀ a b c, lt a b = true → lt b c = true → lt a c = true)
    (hneg : ∀ a b c, lt a b = false → lt b c = false → lt a c = false)
    (hirr : ∀ a, lt a a = false) :
    ∀ (x : α) (ys : List α), ∀ z ∈ x :: ys, lt z (pickMinBy lt x ys) = false := by
  intro x ys
  induction ys generalizing x with
  | nil =>
    intro z hz
    rcases List.mem_cons.mp hz with rfl | h
    · exact hirr z
    · cases h
  | cons y ys ih =>
    intro z hz
    rw [pickMinBy]
    by_cases hyx : lt y x = true
    · simp only [hyx, if_true]
      rcases List.mem_cons.mp hz with rfl | hz'
      · -- z is the old head, strictly above y, which bounds the recursive minimum
        cases hzr : lt z (pickMinBy lt y ys) with
        | false => rfl
        | true =>
          have hy : lt y (pickMinBy lt y ys) = true := htrans y z _ hyx hzr
          rw [ih y y (List.mem_cons_self _ _)] at hy
          cases hy
      · exact ih y z hz'
    · rw [Bool.not_eq_true] at hyx
      simp only [hyx, Bool.false_eq_true, if_false]
      rcases List.mem_cons.mp hz with rfl | hz'
      · exact ih z z (List.mem_cons_self _ _)
      · rcases List.mem_cons.mp hz' with rfl | hz''
        · exact hneg z x _ hyx (ih x x (List.mem_cons_self _ _))
        · exact ih x z (List.mem_cons_of_mem _ hz'')

theorem oppLt_iff {a b : OppCand} :
    oppLt a b = true ↔
      (a.key.1 < b.key.1 ∨ (a.key.1 = b.key.1 ∧
        (a.key.2 < b.key.2 ∨ (a.key.2 = b.key.2 ∧
          (a.pos.1 < b.pos.1 ∨ (a.pos.1 = b.pos.1 ∧ a.pos.2 < b.pos.2)))))) := by
  simp [oppLt, pairLt]

theorem oppLt_trans (a b c : OppCand) (h₁ : oppLt a b = true)
    (h₂ : oppLt b c = true) : oppLt a c = true := by
  rw [oppLt_iff] at *
  omega

theorem oppLt_negtrans (a b c : OppCand) (h₁ : oppLt a b = false)
    (h₂ : oppLt b c = false) : oppLt a c = false := by
  rw [← Bool.not_eq_true] at *
  rw [oppLt_iff] at *
  omega

theorem oppLt_irrefl (a : OppCand) : oppLt a a = false := by
  rw [← Bool.not_eq_true, oppLt_iff]
  omega

theorem mem_oppRound {out : Finset Char} {d : Char → Nat} {memory : Nat}
    {sets : List (Finset Char)} {c : OppCand} :
    c ∈ oppRound out d memory sets ↔
      ∃ i j, i < j ∧ j < sets.length ∧
        computeSizeF (findContraction [i, j] sets out).1 d ≤ memory ∧
        c = ⟨(-(computeSizeF (findContraction [i, j] sets out).2.2.1 d : Int),
              computeSizeF (findContraction [i, j] sets out).2.2.2 d), (i, j),
             (findContraction [i, j] sets out).2.1⟩ := by
  simp only [oppRound, List.mem_filterMap]
  constructor
  · rintro ⟨⟨i, j⟩, hmem, hc⟩
    rw [mem_triuPairs] at hmem
    simp only at hc
    by_cases hsize : computeSizeF (findContraction [i, j] sets out).1 d > memory
    · rw [if_pos hsize] at hc
      cases hc
    · rw [if_neg hsize] at hc
      exact ⟨i, j, hmem.1, hmem.2, by omega, (Option.some.inj hc).symm⟩
  · rintro ⟨i, j, hij, hjn, hsize, rfl⟩
    refine ⟨(i, j), mem_triuPairs.mpr ⟨hij, hjn⟩, ?_⟩
    simp only
    rw [if_neg (by omega)]

/-- Claim C5: each round of the greedy strategy evaluates every
unordered pair of live positions (first conjunct, an exact
characterization of the round's surviving candidates: pairs `i < j`
below the live count whose result size does not exceed the ceiling,
scored `(-removed_size, cost)`), commits exactly the best-ranked pair as
the round's step, and updates the live operand list with that pair's
`remaining` before the next round (second conjunct: the recursion
equation, membership of the committed candidate, and its key-minimality
among all survivors). -/
theorem c5_greedy_round :
    (∀ (out : Finset Char) (d : Char → Nat) (memory : Nat)
        (sets : List (Finset Char)) (c : OppCand),
      c ∈ oppRound out d memory sets ↔
        ∃ i j, i < j ∧ j < sets.length ∧
          computeSizeF (findContraction [i, j] sets out).1 d ≤ memory ∧
          c = ⟨(-(computeSizeF (findContraction [i, j] sets out).2.2.1 d : Int),
                computeSizeF (findContraction [i, j] sets out).2.2.2 d), (i, j),
               (findContraction [i, j] sets out).2.1⟩) ∧
    (∀ (out : Finset Char) (d : Char → Nat) (memory : Nat)
        (sets : List (Finset Char)) (fuel : Nat) (c : OppCand) (cs : List OppCand),
      oppRound out d memory sets = c :: cs →
      pathOppAux out d memory (fuel + 1) sets =
        [(pickMinBy oppLt c cs).pos.1, (pickMinBy oppLt c cs).pos.2] ::
          pathOppAux out d memory fuel (pickMinBy oppLt c cs).rem ∧
      pickMinBy oppLt c cs ∈ c :: cs ∧
      (∀ x ∈ c :: cs,
        (pickMinBy oppLt c cs).key.1 < x.key.1 ∨
          ((pickMinBy oppLt c cs).key.1 = x.key.1 ∧
            (pickMinBy oppLt c cs).key.2 ≤ x.key.2))) := by
  refine ⟨fun out d memory sets c => mem_oppRound, ?_⟩
  intro out d memory sets fuel c cs hround
  refine ⟨by simp only [pathOppAux, hround], pickMinBy_mem oppLt c cs, ?_⟩
  intro x hx
  have h := pickMinBy_not_lt oppLt oppLt_trans oppLt_negtrans oppLt_irrefl c cs x hx
  rw [← Bool.not_eq_true, oppLt_iff] at h
  omega

/-- Witness for claim C5: two rank-1 operands with distinct labels and a
generous ceiling; the single pair (0, 1) survives, is committed, and the
live list becomes the single fused result set. -/
theorem c5_witness :
    pathOppAux (∅ : Finset Char) (fun _ => 2) 100 1 [{'a'}, {'b'}] =
      [0, 1] :: pathOppAux (∅ : Finset Char) (fun _ => 2) 100 0 [(∅ : Finset Char)] :=
  (c5_greedy_round.2 (∅ : Finset Char) (fun _ => 2) 100 [{'a'}, {'b'}] 0
    ⟨((-4 : Int), 4), (0, 1), [(∅ : Finset Char)]⟩ [] (by decide)).1

theorem mem_insertDesc {x y : Nat} {l : List Nat} :
    y ∈ insertDesc x l ↔ y = x ∨ y ∈ l := by
  induction l with
  | nil => simp [insertDesc]
  | cons a l ih =>
    rw [insertDesc]
    by_cases h : x ≥ a
    · simp [h]
    · simp only [h, if_false, List.mem_cons, ih]
      tauto

theorem insertDesc_perm (x : Nat) (l : List Nat) :
    (insertDesc x l).Perm (x :: l) := by
  induction l with
  | nil => simp [insertDesc]
  | cons a l ih =>
    rw [insertDesc]
    by_cases h : x ≥ a
    · simp [h]
    · simp only [h, if_false]
      exact (ih.cons a).trans (List.Perm.swap x a l)

theorem sortDesc_perm (l : List Nat) : (sortDesc l).Perm l := by
  induction l with
  | nil => simp [sortDesc]
  | cons a l ih =>
    exact (insertDesc_perm a (sortDesc l)).trans (ih.cons a)

theorem listUnion_append (a b : List (Finset Char)) :
    listUnion (a ++ b) = listUnion a ∪ listUnion b := by
  induction a with
  | nil => simp [listUnion]
  | cons s rest ih =>
    simp only [List.cons_append, listUnion, List.foldr_cons] at *
    rw [ih, Finset.union_assoc]

theorem listUnion_perm {a b : List (Finset Char)} (h : a.Perm b) :
    listUnion a = listUnion b := by
  apply Finset.ext
  intro c
  rw [mem_listUnion, mem_listUnion]
  exact ⟨fun ⟨s, hs, hc⟩ => ⟨s, h.mem_iff.mp hs, hc⟩,
    fun ⟨s, hs, hc⟩ => ⟨s, h.mem_iff.mpr hs, hc⟩⟩

theorem selectIdx_eq_map {st : List Entry} :
    ∀ {inds : List Nat}, (∀ i ∈ inds, i < st.length) →
      selectIdx st inds = some (inds.map (fun i => st.getD i dummyEntry)) := by
  intro inds
  induction inds with
  | nil => intro _; rfl
  | cons i is ih =>
    intro h
    have hi : i < st.length := h i (List.mem_cons_self _ _)
    have hget : st.get? i = some (st.getD i dummyEntry) := by
      rw [List.getD_eq_getElem _ _ hi, List.get?_eq_getElem?,
        List.getElem?_eq_getElem hi]
    simp only [selectIdx, List.mapM_cons] at *
    rw [hget, ih (fun j hj => h j (List.mem_cons_of_mem _ hj))]
    rfl

theorem filterSel_eq_map (positions : List Nat) :
    ∀ (st : List Entry) (k : Nat),
      (List.enumFrom k st).filterMap
          (fun p => if p.1 ∈ positions then some p.2 else none) =
        ((List.range' k st.length).filter
            (fun i => decide (i ∈ positions))).map
          (fun i => st.getD (i - k) dummyEntry) := by
  intro st
  induction st with
  | nil => intro k; rfl
  | cons s st ih =>
    intro k
    rw [List.enumFrom_cons, List.filterMap_cons, List.length_cons, List.range'_succ,
      List.filter_cons]
    have htail : ∀ i ∈ (List.range' (k + 1) st.length).filter
        (fun i => decide (i ∈ positions)),
        (s :: st).getD (i - k) dummyEntry = st.getD (i - (k + 1)) dummyEntry := by
      intro i hi
      rw [List.mem_filter, List.mem_range'_1] at hi
      have h1 : i - k = (i - (k + 1)) + 1 := by omega
      rw [h1, List.getD_cons_succ]
    by_cases hk : k ∈ positions
    · simp only [hk, if_pos, decide_eq_true_eq, if_true]
      rw [ih (k + 1)]
      simp only [Nat.sub_self, List.getD_cons_zero, List.map_cons]
      congr 1
      exact (List.map_congr_left htail).symm
    · simp only [hk, if_neg, not_false_iff, decide_eq_true_eq, if_false]
      rw [ih (k + 1)]
      exact (List.map_congr_left htail).symm

theorem partition_perm (positions : List Nat) :
    ∀ (st : List Entry) (k : Nat),
      st.Perm
        ((List.enumFrom k st).filterMap
            (fun p => if p.1 ∈ positions then some p.2 else none) ++
          (List.enumFrom k st).filterMap
            (fun p => if p.1 ∈ positions then none else some p.2)) := by
  intro st
  induction st with
  | nil => intro k; rfl
  | cons s st ih =>
    intro k
    rw [List.enumFrom_cons, List.filterMap_cons, List.filterMap_cons]
    by_cases hk : k ∈ positions
    · simp only [hk, if_pos]
      exact ((ih (k + 1)).cons s)
    · simp only [hk, if_neg, not_false_iff]
      exact ((ih (k + 1)).cons s).trans List.perm_middle.symm

theorem range_filter_perm {positions : List Nat} {n : Nat}
    (hnodup : positions.Nodup) (hrange : ∀ p ∈ positions, p < n) :
    ((List.range n).filter (fun i => decide (i ∈ positions))).Perm positions := by
  apply List.perm_of_nodup_nodup_toFinset_eq
  · exact (List.nodup_range n).filter _
  · exact hnodup
  · apply Finset.ext
    intro x
    simp only [List.mem_toFinset, List.mem_filter, List.mem_range, decide_eq_true_eq]
    exact ⟨fun h => h.2, fun h => ⟨hrange x h, h⟩⟩

/-- The operands popped in descending index order are a permutation of
the ascending-order selection, and together with the remaining operands
they are a permutation of the whole live list. -/
theorem select_remove_perm {st : List Entry} {positions : List Nat}
    (hnodup : positions.Nodup) (hrange : ∀ p ∈ positions, p < st.length) :
    ∃ sel, selectIdx st (sortDesc positions) = some sel ∧
      sel.Perm ((List.enumFrom 0 st).filterMap
        (fun p => if p.1 ∈ positions then some p.2 else none)) ∧
      st.Perm (sel ++ removeIdx st positions) := by
  have hrange' : ∀ i ∈ sortDesc positions, i < st.length :=
    fun i hi => hrange i ((sortDesc_perm positions).mem_iff.mp hi)
  have hzm : (List.range' 0 st.length) = List.range st.length :=
    (List.range_eq_range' st.length).symm
  have hidx : (sortDesc positions).Perm
      ((List.range' 0 st.length).filter (fun i => decide (i ∈ positions))) := by
    rw [hzm]
    exact (sortDesc_perm positions).trans (range_filter_perm hnodup hrange).symm
  refine ⟨_, selectIdx_eq_map hrange', ?_, ?_⟩
  · rw [filterSel_eq_map positions st 0]
    simp only [Nat.sub_zero]
    exact hidx.map _
  · have hperm := partition_perm positions st 0
    refine hperm.trans (List.Perm.append ?_ (List.Perm.refl _))
    rw [filterSel_eq_map positions st 0]
    simp only [Nat.sub_zero]
    exact (hidx.map _).symm

theorem insertByDim_perm (d : Char → Nat) (c : Char) (l : List Char) :
    (insertByDim d c l).Perm (c :: l) := by
  induction l with
  | nil => simp [insertByDim]
  | cons a l ih =>
    rw [insertByDim]
    by_cases h : dimLe d c a = true
    · simp [h]
    · simp only [h, if_false]
      exact (ih.cons a).trans (List.Perm.swap c a l)

theorem sortByDim_perm (d : Char → Nat) (l : List Char) :
    (sortByDim d l).Perm l := by
  induction l with
  | nil => simp [sortByDim]
  | cons a l ih =>
    exact (insertByDim_perm d a (sortByDim d l)).trans (ih.cons a)

theorem sortByDim_sort_toFinset (d : Char → Nat) (s : Finset Char) :
    (sortByDim d (s.sort (fun a b => a ≤ b))).toFinset = s := by
  rw [List.toFinset_eq_of_perm _ _ (sortByDim_perm d _), Finset.sort_toFinset]

theorem dedup_filter_toFinset (t : List Char) (removed : Finset Char) :
    (t.dedup.filter (fun c => c ∉ removed)).toFinset = t.toFinset \ removed := by
  apply Finset.ext
  intro c
  simp [List.mem_filter, Finset.mem_sdiff, List.mem_dedup]

/-- The label set of the term any branch of the executor produces is one
of: all selected labels (scalar product), all selected labels minus the
removed ones (tensordot), or exactly the result labels (einsum). -/
theorem branchTerm_toFinset (d : Char → Nat) (terms : List (List Char))
    (removed newRes : Finset Char) :
    (branchTerm d terms removed newRes).toFinset = termsUnion terms ∨
    (branchTerm d terms removed newRes).toFinset = termsUnion terms \ removed ∨
    (branchTerm d terms removed newRes).toFinset = newRes := by
  match terms with
  | [t0, t1] =>
    rw [branchTerm]
    by_cases hscal : t0.length = 0 ∨ t1.length = 0
    · rw [if_pos hscal]
      left
      rw [List.toFinset_append]
      simp [termsUnion_cons, termsUnion]
    · rw [if_neg hscal]
      by_cases htdot : removed ≠ ∅ ∧
          (t0.toFinset \ t1.toFinset) ∪ (t1.toFinset \ t0.toFinset) =
            ((t0 ++ t1).filter (fun c => c ∉ removed)).toFinset
      · rw [if_pos htdot]
        right; left
        rw [List.toFinset_append, dedup_filter_toFinset, dedup_filter_toFinset]
        rw [← Finset.union_sdiff_distrib]
        simp [termsUnion_cons, termsUnion]
      · rw [if_neg htdot]
        right; right
        exact sortByDim_sort_toFinset d newRes
  | [] => right; right; exact sortByDim_sort_toFinset d newRes
  | [t] => right; right; exact sortByDim_sort_toFinset d newRes
  | t0 :: t1 :: t2 :: ts => right; right; exact sortByDim_sort_toFinset d newRes

theorem removeIdx_map_iset (positions : List Nat) :
    ∀ (st : List Entry) (k : Nat),
      ((List.enumFrom k st).filterMap
          (fun p => if p.1 ∈ positions then none else some p.2)).map Entry.iset =
        (List.enumFrom k (st.map Entry.iset)).filterMap
          (fun p => if p.1 ∈ positions then none else some p.2) := by
  intro st
  induction st with
  | nil => intro k; rfl
  | cons s st ih =>
    intro k
    simp only [List.map_cons, List.enumFrom_cons, List.filterMap_cons]
    by_cases hk : k ∈ positions
    · simp only [hk, if_pos]
      exact ih (k + 1)
    · simp only [hk, if_neg, not_false_iff, List.map_cons]
      rw [ih (k + 1)]

theorem selAsc_map_iset (positions : List Nat) :
    ∀ (st : List Entry) (k : Nat),
      ((List.enumFrom k st).filterMap
          (fun p => if p.1 ∈ positions then some p.2 else none)).map Entry.iset =
        (List.enumFrom k (st.map Entry.iset)).filterMap
          (fun p => if p.1 ∈ positions then some p.2 else none) := by
  intro st
  induction st with
  | nil => intro k; rfl
  | cons s st ih =>
    intro k
    simp only [List.map_cons, List.enumFrom_cons, List.filterMap_cons]
    by_cases hk : k ∈ positions
    · simp only [hk, if_pos, List.map_cons]
      rw [ih (k + 1)]
    · simp only [hk, if_neg, not_false_iff]
      exact ih (k + 1)

theorem listUnion_map_iset_subset {l : List Entry}
    (h : ∀ e ∈ l, e.iset ⊆ e.term.toFinset) :
    listUnion (l.map Entry.iset) ⊆ termsUnion (l.map Entry.term) := by
  intro c hc
  obtain ⟨s, hs, hcs⟩ := mem_listUnion.mp hc
  obtain ⟨e, he, rfl⟩ := List.mem_map.mp hs
  exact mem_termsUnion.mpr ⟨e.term, List.mem_map_of_mem _ he,
    List.mem_toFinset.mp (h e he hcs)⟩

theorem mem_termsUnion_entries {c : Char} {l : List Entry} :
    c ∈ termsUnion (l.map Entry.term) ↔ ∃ e ∈ l, c ∈ e.term.toFinset := by
  rw [mem_termsUnion]
  constructor
  · rintro ⟨t, ht, hc⟩
    obtain ⟨e, he, rfl⟩ := List.mem_map.mp ht
    exact ⟨e, he, List.mem_toFinset.mpr hc⟩
  · rintro ⟨e, he, hc⟩
    exact ⟨e.term, List.mem_map_of_mem _ he, List.mem_toFinset.mp hc⟩

theorem mem_listUnion_isets {c : Char} {l : List Entry} :
    c ∈ listUnion (l.map Entry.iset) ↔ ∃ e ∈ l, c ∈ e.iset := by
  rw [mem_listUnion]
  constructor
  · rintro ⟨s, hs, hc⟩
    obtain ⟨e, he, rfl⟩ := List.mem_map.mp hs
    exact ⟨e, he, hc⟩
  · rintro ⟨e, he, hc⟩
    exact ⟨e.iset, List.mem_map_of_mem _ he, hc⟩

/-- Any label the selected operands share with the output or with the
remaining operands' terms lies in the step's result set
`(out ∪ remaining index sets) ∩ (selected index sets)`. -/
theorem step_sets_core {sel rest : List Entry} {out : Finset Char}
    (hsubS : ∀ e ∈ sel, e.iset ⊆ e.term.toFinset)
    (hextraO : ∀ e ∈ sel, (e.term.toFinset \ e.iset) ∩ out = ∅)
    (hcross : ∀ e' ∈ sel, ∀ e ∈ rest,
      (e'.term.toFinset \ e'.iset) ∩ e.term.toFinset = ∅ ∧
        (e.term.toFinset \ e.iset) ∩ e'.term.toFinset = ∅) :
    termsUnion (sel.map Entry.term) ∩ (out ∪ termsUnion (rest.map Entry.term)) ⊆
      (out ∪ listUnion (rest.map Entry.iset)) ∩ listUnion (sel.map Entry.iset) := by
  intro c hc
  rw [Finset.mem_inter] at hc
  obtain ⟨hcS, hcOR⟩ := hc
  by_cases hcs : c ∈ listUnion (sel.map Entry.iset)
  · rw [Finset.mem_inter]
    refine ⟨?_, hcs⟩
    rw [Finset.mem_union] at hcOR ⊢
    rcases hcOR with hco | hcr
    · exact Or.inl hco
    · obtain ⟨e, he, hce⟩ := mem_termsUnion_entries.mp hcr
      by_cases hcei : c ∈ e.iset
      · exact Or.inr (mem_listUnion_isets.mpr ⟨e, he, hcei⟩)
      · obtain ⟨e'', he'', hce''⟩ := mem_listUnion_isets.mp hcs
        exact absurd ((hcross e'' he'' e he).2)
          (fun hdisj => Finset.not_mem_empty c
            (hdisj ▸ Finset.mem_inter.mpr
              ⟨Finset.mem_sdiff.mpr ⟨hce, hcei⟩, hsubS e'' he'' hce''⟩))
  · exfalso
    obtain ⟨e', he', hce'⟩ := mem_termsUnion_entries.mp hcS
    have hcex : c ∈ e'.term.toFinset \ e'.iset :=
      Finset.mem_sdiff.mpr ⟨hce', fun hci => hcs (mem_listUnion_isets.mpr ⟨e', he', hci⟩)⟩
    rw [Finset.mem_union] at hcOR
    rcases hcOR with hco | hcr
    · exact Finset.not_mem_empty c (hextraO e' he' ▸ Finset.mem_inter.mpr ⟨hcex, hco⟩)
    · obtain ⟨e, he, hce⟩ := mem_termsUnion_entries.mp hcr
      exact Finset.not_mem_empty c
        ((hcross e' he' e he).1 ▸ Finset.mem_inter.mpr ⟨hcex, hce⟩)

/-- The labels the new intermediate's term carries beyond the step's
result set are foreign to the output and to every remaining operand, and
the remaining operands' extra labels are foreign to the new term. -/
theorem step_extra_core {sel rest : List Entry} {out bt : Finset Char}
    (hbt : bt ⊆ termsUnion (sel.map Entry.term))
    (hsubS : ∀ e ∈ sel, e.iset ⊆ e.term.toFinset)
    (hextraO : ∀ e ∈ sel, (e.term.toFinset \ e.iset) ∩ out = ∅)
    (hcross : ∀ e' ∈ sel, ∀ e ∈ rest,
      (e'.term.toFinset \ e'.iset) ∩ e.term.toFinset = ∅ ∧
        (e.term.toFinset \ e.iset) ∩ e'.term.toFinset = ∅) :
    ((bt \ ((out ∪ listUnion (rest.map Entry.iset)) ∩
        listUnion (sel.map Entry.iset))) ∩ out = ∅) ∧
    (∀ e ∈ rest,
      (bt \ ((out ∪ listUnion (rest.map Entry.iset)) ∩
          listUnion (sel.map Entry.iset))) ∩ e.term.toFinset = ∅ ∧
        (e.term.toFinset \ e.iset) ∩ bt = ∅) := by
  have hExS : ∀ c ∈ bt, c ∉ listUnion (sel.map Entry.iset) →
      ∃ e' ∈ sel, c ∈ e'.term.toFinset \ e'.iset := by
    intro c hc hcs
    obtain ⟨e', he', hce'⟩ := mem_termsUnion_entries.mp (hbt hc)
    exact ⟨e', he', Finset.mem_sdiff.mpr
      ⟨hce', fun hci => hcs (mem_listUnion_isets.mpr ⟨e', he', hci⟩)⟩⟩
  constructor
  · apply Finset.eq_empty_iff_forall_not_mem.mpr
    intro c hc
    rw [Finset.mem_inter, Finset.mem_sdiff] at hc
    obtain ⟨⟨hcb, hcn⟩, hco⟩ := hc
    by_cases hcs : c ∈ listUnion (sel.map Entry.iset)
    · exact hcn (Finset.mem_inter.mpr ⟨Finset.mem_union_left _ hco, hcs⟩)
    · obtain ⟨e', he', hcex⟩ := hExS c hcb hcs
      exact Finset.not_mem_empty c (hextraO e' he' ▸ Finset.mem_inter.mpr ⟨hcex, hco⟩)
  · intro e he
    constructor
    · apply Finset.eq_empty_iff_forall_not_mem.mpr
      intro c hc
      rw [Finset.mem_inter, Finset.mem_sdiff] at hc
      obtain ⟨⟨hcb, hcn⟩, hct⟩ := hc
      by_cases hcs : c ∈ listUnion (sel.map Entry.iset)
      · by_cases hcei : c ∈ e.iset
        · exact hcn (Finset.mem_inter.mpr
            ⟨Finset.mem_union_right _ (mem_listUnion_isets.mpr ⟨e, he, hcei⟩), hcs⟩)
        · obtain ⟨e'', he'', hce''⟩ := mem_listUnion_isets.mp hcs
          exact Finset.not_mem_empty c ((hcross e'' he'' e he).2 ▸
            Finset.mem_inter.mpr ⟨Finset.mem_sdiff.mpr ⟨hct, hcei⟩,
              hsubS e'' he'' hce''⟩)
      · obtain ⟨e', he', hcex⟩ := hExS c hcb hcs
        exact Finset.not_mem_empty c
          ((hcross e' he' e he).1 ▸ Finset.mem_inter.mpr ⟨hcex, hct⟩)
    · apply Finset.eq_empty_iff_forall_not_mem.mpr
      intro c hc
      rw [Finset.mem_inter] at hc
      obtain ⟨hcex, hcb⟩ := hc
      obtain ⟨e', he', hce'⟩ := mem_termsUnion_entries.mp (hbt hcb)
      exact Finset.not_mem_empty c
        ((hcross e' he' e he).2 ▸ Finset.mem_inter.mpr ⟨hcex, hce'⟩)

/-- One executor step, on a state satisfying the invariant and with
distinct in-range positions, succeeds, preserves the invariant, tracks
the index-set bookkeeping of `_find_contraction`, and preserves the
einsum meaning of the live operand list. -/
theorem execStep_ok {d : Char → Nat} {out : Finset Char} {outT : List Char}
    (hout : outT.toFinset = out)
    {st : List Entry} {positions : List Nat}
    (hinv : Inv out st)
    (hnodup : positions.Nodup) (hrange : ∀ p ∈ positions, p < st.length) :
    ∃ st', execStep d out st positions = some st' ∧
      Inv out st' ∧
      st'.map Entry.iset = setsStep out (st.map Entry.iset) positions ∧
      (∀ σ, meaning d outT st' σ = meaning d outT st σ) := by
  obtain ⟨sel, hsel, hselperm, hperm⟩ := select_remove_perm hnodup hrange
  obtain ⟨hsub, hdep, hexO, hpairw⟩ := hinv
  -- entries of sel and rest are entries of st
  have hmemsel : ∀ e ∈ sel, e ∈ st := fun e he =>
    hperm.mem_iff.mpr (List.mem_append.mpr (Or.inl he))
  have hmemrest : ∀ e ∈ removeIdx st positions, e ∈ st := fun e he =>
    hperm.mem_iff.mpr (List.mem_append.mpr (Or.inr he))
  have hsubS := fun e he => hsub e (hmemsel e he)
  have hsubR := fun e he => hsub e (hmemrest e he)
  have hdepS := fun e he => hdep e (hmemsel e he)
  have hdepR := fun e he => hdep e (hmemrest e he)
  have hexOS := fun e he => hexO e (hmemsel e he)
  have hexOR := fun e he => hexO e (hmemrest e he)
  have hpw : List.Pairwise
      (fun e₁ e₂ : Entry =>
        (e₁.term.toFinset \ e₁.iset) ∩ e₂.term.toFinset = ∅ ∧
          (e₂.term.toFinset \ e₂.iset) ∩ e₁.term.toFinset = ∅)
      (sel ++ removeIdx st positions) :=
    (hperm.pairwise_iff (fun {e₁ e₂} h => ⟨h.2, h.1⟩)).mp hpairw
  have hpwparts := List.pairwise_append.mp hpw
  have hcross := hpwparts.2.2
  -- characterize the _find_contraction components
  have hRs : (removeIdx st positions).map Entry.iset =
      unselectedFrom positions 0 (st.map Entry.iset) :=
    removeIdx_map_iset positions st 0
  have hSsU : listUnion (selectedFrom positions 0 (st.map Entry.iset)) =
      listUnion (sel.map Entry.iset) := by
    refine (listUnion_perm ?_).symm
    rw [show selectedFrom positions 0 (st.map Entry.iset) =
      ((List.enumFrom 0 st).filterMap
        (fun p => if p.1 ∈ positions then some p.2 else none)).map Entry.iset
      from (selAsc_map_iset positions st 0).symm]
    exact hselperm.map _
  have hfc : findContraction positions (st.map Entry.iset) out =
      ((out ∪ listUnion (unselectedFrom positions 0 (st.map Entry.iset))) ∩
          listUnion (selectedFrom positions 0 (st.map Entry.iset)),
        unselectedFrom positions 0 (st.map Entry.iset) ++
          [(out ∪ listUnion (unselectedFrom positions 0 (st.map Entry.iset))) ∩
            listUnion (selectedFrom positions 0 (st.map Entry.iset))],
        listUnion (selectedFrom positions 0 (st.map Entry.iset)) \
          ((out ∪ listUnion (unselectedFrom positions 0 (st.map Entry.iset))) ∩
            listUnion (selectedFrom positions 0 (st.map Entry.iset))),
        listUnion (selectedFrom positions 0 (st.map Entry.iset))) := by
    simp [findContraction, fcAux_eq]
  rw [hSsU, ← hRs] at hfc
  -- abbreviations for the step's result set, removed set, and new term
  obtain ⟨NR, hNRdef⟩ : ∃ NR, NR =
      (out ∪ listUnion ((removeIdx st positions).map Entry.iset)) ∩
        listUnion (sel.map Entry.iset) := ⟨_, rfl⟩
  obtain ⟨RM, hRMdef⟩ : ∃ RM, RM = listUnion (sel.map Entry.iset) \ NR := ⟨_, rfl⟩
  rw [← hNRdef] at hfc
  rw [show listUnion (sel.map Entry.iset) \ NR = RM from hRMdef.symm] at hfc
  obtain ⟨nt, hntdef⟩ : ∃ nt, nt = branchTerm d (sel.map Entry.term) RM NR := ⟨_, rfl⟩
  have hcore : termsUnion (sel.map Entry.term) ∩
      (out ∪ termsUnion ((removeIdx st positions).map Entry.term)) ⊆ NR := by
    rw [hNRdef]
    exact step_sets_core hsubS hexOS hcross
  have hbtsub : nt.toFinset ⊆ termsUnion (sel.map Entry.term) := by
    rcases branchTerm_toFinset d (sel.map Entry.term) RM NR with hbt | hbt | hbt
    · rw [hntdef, hbt]
    · rw [hntdef, hbt]
      exact fun c hc => (Finset.mem_sdiff.mp hc).1
    · rw [hntdef, hbt, hNRdef]
      exact fun c hc => listUnion_map_iset_subset hsubS (Finset.mem_inter.mp hc).2
  have hsup : termsUnion (sel.map Entry.term) ∩
      (out ∪ termsUnion ((removeIdx st positions).map Entry.term)) ⊆
        nt.toFinset := by
    rcases branchTerm_toFinset d (sel.map Entry.term) RM NR with hbt | hbt | hbt
    · rw [hntdef, hbt]
      exact fun c hc => (Finset.mem_inter.mp hc).1
    · rw [hntdef, hbt]
      intro c hc
      rw [Finset.mem_sdiff]
      refine ⟨(Finset.mem_inter.mp hc).1, fun hrm => ?_⟩
      rw [hRMdef, Finset.mem_sdiff] at hrm
      exact hrm.2 (hcore hc)
    · rw [hntdef, hbt]
      exact fun c hc => hcore hc
  have hNRS : NR ⊆ listUnion (sel.map Entry.iset) := by
    rw [hNRdef]
    exact Finset.inter_subset_right
  have hNRsub : NR ⊆ nt.toFinset := by
    rcases branchTerm_toFinset d (sel.map Entry.term) RM NR with hbt | hbt | hbt
    · rw [hntdef, hbt]
      exact fun c hc => listUnion_map_iset_subset hsubS (hNRS hc)
    · rw [hntdef, hbt]
      intro c hc
      rw [Finset.mem_sdiff]
      refine ⟨listUnion_map_iset_subset hsubS (hNRS hc), fun hrm => ?_⟩
      rw [hRMdef, Finset.mem_sdiff] at hrm
      exact hrm.2 hc
    · rw [hntdef, hbt]
  have hextra := step_extra_core hbtsub hsubS hexOS hcross
  rw [← hNRdef] at hextra
  have hdepNew : DependsOnlyOn
      (einsumVal d (sel.map Entry.term) (sel.map Entry.val) nt) nt.toFinset := by
    have h := @einsumVal_depends d (sel.map (fun e => (e.term, e.val)))
      (fun p hp => by
        obtain ⟨e, he, rfl⟩ := List.mem_map.mp hp
        exact hdepS e he) nt
    rw [List.map_map, List.map_map] at h
    exact h
  refine ⟨removeIdx st positions ++ [⟨NR, nt,
    einsumVal d (sel.map Entry.term) (sel.map Entry.val) nt⟩], ?_, ?_, ?_, ?_⟩
  -- the step computes exactly this state
  · rw [execStep, hsel]
    simp only [hfc, hntdef]
  -- the invariant is preserved
  · refine ⟨?_, ?_, ?_, ?_⟩
    · intro e he
      rcases List.mem_append.mp he with hr | hn
      · exact hsubR e hr
      · rw [List.mem_singleton.mp hn]
        exact hNRsub
    · intro e he
      rcases List.mem_append.mp he with hr | hn
      · exact hdepR e hr
      · rw [List.mem_singleton.mp hn]
        exact hdepNew
    · intro e he
      rcases List.mem_append.mp he with hr | hn
      · exact hexOR e hr
      · rw [List.mem_singleton.mp hn]
        exact hextra.1
    · rw [List.pairwise_append]
      refine ⟨hpwparts.2.1, List.pairwise_singleton _ _, ?_⟩
      intro e he e' he'
      rw [List.mem_singleton.mp he']
      exact ⟨(hextra.2 e he).2, (hextra.2 e he).1⟩
  -- the index sets evolve exactly as `_find_contraction` prescribes
  · rw [setsStep, hfc, List.map_append, List.map_cons, List.map_nil]
  -- the meaning of the operand list is unchanged
  · intro σ
    have hfuse := @fuse_preserves_meaning d
      ((removeIdx st positions).map (fun e => (e.term, e.val)))
      (sel.map (fun e => (e.term, e.val))) nt outT
      (fun p hp => by
        obtain ⟨e, he, rfl⟩ := List.mem_map.mp hp
        exact hdepR e he)
      (by
        rw [List.map_map]
        exact hbtsub)
      (by
        rw [List.map_map, List.map_map, hout]
        exact hsup) σ
    rw [List.map_map, List.map_map, List.map_map, List.map_map] at hfuse
    have hpairsperm : (((removeIdx st positions).map (fun e => (e.term, e.val))) ++
        sel.map (fun e => (e.term, e.val))).Perm
          (st.map (fun e => (e.term, e.val))) := by
      refine List.Perm.trans (List.perm_append_comm) ?_
      rw [← List.map_append]
      exact (hperm.map _).symm
    have hswap := einsumVal_pairs_perm (d := d) hpairsperm outT σ
    simp only [List.map_append, List.map_map] at hswap
    rw [meaning, meaning, List.map_append, List.map_append, List.map_cons,
      List.map_cons, List.map_nil, List.map_nil]
    exact hfuse.trans hswap

theorem setsExec_append (out : Finset Char) (p₁ p₂ : List (List Nat)) :
    ∀ (s : List (Finset Char)),
      setsExec out (p₁ ++ p₂) s = setsExec out p₂ (setsExec out p₁ s) := by
  induction p₁ with
  | nil => intro s; rfl
  | cons p ps ih =>
    intro s
    simp only [List.cons_append, setsExec]
    exact ih _

theorem planCostAux_append (out : Finset Char) (d : Char → Nat)
    (p₁ p₂ : List (List Nat)) :
    ∀ (s : List (Finset Char)),
      planCostAux out d (p₁ ++ p₂) s =
        planCostAux out d p₁ s + planCostAux out d p₂ (setsExec out p₁ s) := by
  induction p₁ with
  | nil => intro s; simp [planCostAux, setsExec]
  | cons p ps ih =>
    intro s
    simp only [List.cons_append, planCostAux, setsExec, setsStep, List.append_eq]
    rw [ih]
    omega

theorem lenAfter_snoc (ps : List (List Nat)) (q : List Nat) :
    ∀ (n : Nat), lenAfter n (ps ++ [q]) = lenAfter n ps - q.length + 1 := by
  induction ps with
  | nil => intro n; rfl
  | cons p ps ih =>
    intro n
    simp only [List.cons_append, lenAfter]
    exact ih _

theorem StepsOK_snoc {ps : List (List Nat)} {q : List Nat} :
    ∀ {n : Nat}, StepsOK n ps → q.Nodup → (∀ i ∈ q, i < lenAfter n ps) →
      StepsOK n (ps ++ [q]) := by
  induction ps with
  | nil =>
    intro n _ hnd hr
    exact ⟨hnd, hr, trivial⟩
  | cons p ps ih =>
    intro n hok hnd hr
    exact ⟨hok.1, hok.2.1, ih hok.2.2 hnd hr⟩

theorem out_subset_remaining {positions : List Nat} {sets : List (Finset Char)}
    {out : Finset Char} (h : out ⊆ listUnion sets) :
    out ⊆ listUnion ((findContraction positions sets out).2.1) := by
  intro c hc
  have hfc : (findContraction positions sets out).2.1 =
      unselectedFrom positions 0 sets ++
        [(out ∪ listUnion (unselectedFrom positions 0 sets)) ∩
          listUnion (selectedFrom positions 0 sets)] := by
    simp [findContraction, fcAux_eq]
  rw [hfc, listUnion_append]
  obtain ⟨s, hs, hcs⟩ := mem_listUnion.mp (h hc)
  obtain ⟨i, hi, rfl⟩ := List.mem_iff_get.mp hs
  by_cases hp : (i : Nat) ∈ positions
  · refine Finset.mem_union_right _ ?_
    rw [show listUnion [(out ∪ listUnion (unselectedFrom positions 0 sets)) ∩
        listUnion (selectedFrom positions 0 sets)] =
      (out ∪ listUnion (unselectedFrom positions 0 sets)) ∩
        listUnion (selectedFrom positions 0 sets) from by simp [listUnion]]
    exact Finset.mem_inter.mpr ⟨Finset.mem_union_left _ hc,
      mem_selectedUnion.mpr ⟨i, i.isLt, hp, hcs⟩⟩
  · exact Finset.mem_union_left _
      (mem_unselectedUnion.mpr ⟨i, i.isLt, hp, hcs⟩)

theorem selectedFrom_full {positions : List Nat} :
    ∀ (k : Nat) (sets : List (Finset Char)),
      (∀ m, k ≤ m → m < k + sets.length → m ∈ positions) →
      selectedFrom positions k sets = sets ∧
        unselectedFrom positions k sets = [] := by
  intro k sets
  induction sets generalizing k with
  | nil => intro _; exact ⟨rfl, rfl⟩
  | cons s rest ih =>
    intro hall
    have hk : k ∈ positions := hall k (Nat.le_refl _) (by simp)
    have hrest := ih (k + 1) (fun m h1 h2 => hall m (by omega) (by simp at *; omega))
    constructor
    · simp only [selectedFrom, List.enumFrom_cons, List.filterMap_cons, hk, if_pos]
      rw [show (List.enumFrom (k + 1) rest).filterMap
          (fun p => if p.1 ∈ positions then some p.2 else none) =
        selectedFrom positions (k + 1) rest from rfl, hrest.1]
    · simp only [unselectedFrom, List.enumFrom_cons, List.filterMap_cons, hk, if_pos]
      rw [show (List.enumFrom (k + 1) rest).filterMap
          (fun p => if p.1 ∈ positions then none else some p.2) =
        unselectedFrom positions (k + 1) rest from rfl, hrest.2]

/-- Contracting every live position in one step leaves exactly the
output label set. -/
theorem findContraction_full {sets : List (Finset Char)} {out : Finset Char}
    (h : out ⊆ listUnion sets) :
    (findContraction (List.range sets.length) sets out).2.1 = [out] := by
  have hfull := @selectedFrom_full (List.range sets.length) 0 sets
    (fun m h1 h2 => List.mem_range.mpr (by omega))
  have hfc : (findContraction (List.range sets.length) sets out).2.1 =
      unselectedFrom (List.range sets.length) 0 sets ++
        [(out ∪ listUnion (unselectedFrom (List.range sets.length) 0 sets)) ∩
          listUnion (selectedFrom (List.range sets.length) 0 sets)] := by
    simp [findContraction, fcAux_eq]
  rw [hfc, hfull.1, hfull.2]
  simp only [List.nil_append, listUnion, List.foldr_nil, Finset.union_empty]
  congr 1
  exact Finset.inter_eq_left.mpr h

theorem length_unselectedFrom_pair {i j : Nat} (hne : i ≠ j) :
    ∀ (sets : List (Finset Char)) (k : Nat),
      (unselectedFrom [i, j] k sets).length +
        ((if k ≤ i ∧ i < k + sets.length then 1 else 0) +
          (if k ≤ j ∧ j < k + sets.length then 1 else 0)) = sets.length := by
  intro sets
  induction sets with
  | nil =>
    intro k
    simp only [unselectedFrom, List.enumFrom_nil, List.filterMap_nil,
      List.length_nil]
    split_ifs <;> omega
  | cons s rest ih =>
    intro k
    have hrec := ih (k + 1)
    simp only [unselectedFrom, List.enumFrom_cons, List.filterMap_cons] at *
    simp only [List.length_cons] at *
    by_cases hk : k ∈ [i, j]
    · simp only [hk, if_pos]
      have hk' : k = i ∨ k = j := by simpa using hk
      rcases hk' with rfl | rfl <;> (split_ifs at hrec ⊢ <;> omega)
    · simp only [hk, if_neg, not_false_iff, List.length_cons]
      have hk' : ¬(k = i ∨ k = j) := by simpa using hk
      split_ifs at hrec ⊢ <;> omega

/-- A pair step on live operands shrinks the operand list by one. -/
theorem length_remaining_pair {i j : Nat} {sets : List (Finset Char)}
    {out : Finset Char} (hij : i < j) (hj : j < sets.length) :
    (findContraction [i, j] sets out).2.1.length = sets.length - 1 := by
  have hfc : (findContraction [i, j] sets out).2.1 =
      unselectedFrom [i, j] 0 sets ++
        [(out ∪ listUnion (unselectedFrom [i, j] 0 sets)) ∩
          listUnion (selectedFrom [i, j] 0 sets)] := by
    simp [findContraction, fcAux_eq]
  rw [hfc, List.length_append, List.length_singleton]
  have h := length_unselectedFrom_pair (by omega : i ≠ j) sets 0
  split_ifs at h <;> omega

theorem mem_optExtend {out : Finset Char} {d : Char → Nat} {memory k : Nat}
    {c c' : Cand} :
    c' ∈ optExtend out d memory k c ↔
      ∃ i j, i < j ∧ j < k ∧
        computeSizeF (findContraction [i, j] c.rem out).1 d ≤ memory ∧
        c' = ⟨c.cost +
            (if (findContraction [i, j] c.rem out).2.2.1 = ∅ then
              computeSizeF (findContraction [i, j] c.rem out).2.2.2 d
            else 2 * computeSizeF (findContraction [i, j] c.rem out).2.2.2 d),
          c.pos ++ [(i, j)], (findContraction [i, j] c.rem out).2.1⟩ := by
  simp only [optExtend, List.mem_filterMap]
  constructor
  · rintro ⟨⟨i, j⟩, hmem, hc⟩
    rw [mem_triuPairs] at hmem
    simp only at hc
    by_cases hsize : computeSizeF (findContraction [i, j] c.rem out).1 d > memory
    · rw [if_pos hsize] at hc
      cases hc
    · rw [if_neg hsize] at hc
      exact ⟨i, j, hmem.1, hmem.2, by omega, (Option.some.inj hc).symm⟩
  · rintro ⟨i, j, hij, hjk, hsize, rfl⟩
    refine ⟨(i, j), mem_triuPairs.mpr ⟨hij, hjk⟩, ?_⟩
    simp only
    rw [if_neg (by omega)]

theorem optCands_eq_upTo (inp : List (List Char)) (out : Finset Char)
    (d : Char → Nat) (memory : Nat) :
    optCands inp out d memory = optCandsUpTo inp out d memory (inp.length - 1) :=
  rfl

theorem optCandsUpTo_succ (inp : List (List Char)) (out : Finset Char)
    (d : Char → Nat) (memory : Nat) (m : Nat) :
    optCandsUpTo inp out d memory (m + 1) =
      optRound out d memory (inp.length - m) (optCandsUpTo inp out d memory m) := by
  rw [optCandsUpTo, optCandsUpTo, List.range_succ, List.foldl_append]
  rfl

theorem findContraction_pair_two {s0 s1 out : Finset Char} (h : out ⊆ s0 ∪ s1) :
    (findContraction [0, 1] [s0, s1] out).2.1 = [out] := by
  have h01 : (0 : Nat) ∈ [0, 1] := by decide
  have h11 : (1 : Nat) ∈ [0, 1] := by decide
  simp only [findContraction, fcAux, h01, h11, if_pos, Finset.union_empty,
    List.nil_append]
  congr 1
  exact Finset.inter_eq_left.mpr h

theorem pathOppAux_cons_eq {out : Finset Char} {d : Char → Nat} {mem : Nat}
    {sets : List (Finset Char)} {c : OppCand} {cs : List OppCand} (fuel : Nat)
    (hround : oppRound out d mem sets = c :: cs) :
    pathOppAux out d mem (fuel + 1) sets =
      [(pickMinBy oppLt c cs).pos.1, (pickMinBy oppLt c cs).pos.2] ::
        pathOppAux out d mem fuel (pickMinBy oppLt c cs).rem := by
  simp only [pathOppAux, hround]

/-- The greedy plan for at least two live operands is valid: its steps
are in range, replaying them collapses the index sets to exactly the
output set, and it has one step per round unless a final full-width
fusion cuts it short. -/
theorem opp_plan_props (out : Finset Char) (d : Char → Nat) (mem : Nat) :
    ∀ (fuel : Nat) (sets : List (Finset Char)), sets.length = fuel + 2 →
      out ⊆ listUnion sets →
      StepsOK sets.length (pathOppAux out d mem (fuel + 1) sets) ∧
      setsExec out (pathOppAux out d mem (fuel + 1) sets) sets = [out] ∧
      ((pathOppAux out d mem (fuel + 1) sets).length = fuel + 1 ∨
        (∃ s ∈ pathOppAux out d mem (fuel + 1) sets, 3 ≤ s.length ∧
          (pathOppAux out d mem (fuel + 1) sets).length ≤ fuel + 1)) := by
  intro fuel
  induction fuel with
  | zero =>
    intro sets hlen hsub
    obtain ⟨s0, s1, rfl⟩ := List.length_eq_two.mp hlen
    have hsub' : out ⊆ s0 ∪ s1 := by
      intro c hc
      have h2 := hsub hc
      simp only [listUnion, List.foldr_cons, List.foldr_nil,
        Finset.union_empty] at h2
      exact h2
    cases hround : oppRound out d mem [s0, s1] with
    | nil =>
      simp only [pathOppAux, hround]
      refine ⟨⟨List.nodup_range _, fun i hi => List.mem_range.mp hi, trivial⟩,
        ?_, Or.inl rfl⟩
      simp only [setsExec, setsStep]
      exact findContraction_pair_two hsub'
    | cons c cs =>
      have hmem : pickMinBy oppLt c cs ∈ oppRound out d mem [s0, s1] := by
        rw [hround]
        exact pickMinBy_mem oppLt c cs
      obtain ⟨i, j, hij, hj2, hsz, hceq⟩ := mem_oppRound.mp hmem
      have hi0 : i = 0 := by simp at hj2; omega
      have hj1 : j = 1 := by simp at hj2; omega
      subst hi0; subst hj1
      simp only [pathOppAux, hround]
      rw [hceq]
      simp only [pathOppAux]
      refine ⟨⟨by simp, ?_, trivial⟩, ?_, Or.inl rfl⟩
      · intro x hx
        simp only [List.length_cons, List.length_singleton]
        simp at hx
        omega
      · simp only [setsExec, setsStep]
        exact findContraction_pair_two hsub'
  | succ fuel ih =>
    intro sets hlen hsub
    cases hround : oppRound out d mem sets with
    | nil =>
      simp only [pathOppAux, hround]
      refine ⟨⟨List.nodup_range _, fun i hi => List.mem_range.mp hi, trivial⟩,
        ?_, ?_⟩
      · simp only [setsExec, setsStep]
        exact findContraction_full hsub
      · right
        refine ⟨List.range sets.length, List.mem_cons_self _ _, ?_, ?_⟩
        · rw [List.length_range]; omega
        · simp
    | cons c cs =>
      have hmem : pickMinBy oppLt c cs ∈ oppRound out d mem sets := by
        rw [hround]
        exact pickMinBy_mem oppLt c cs
      obtain ⟨i, j, hij, hjn, hsz, hceq⟩ := mem_oppRound.mp hmem
      have hrem : (findContraction [i, j] sets out).2.1.length = fuel + 2 := by
        rw [length_remaining_pair hij hjn]
        omega
      have hsubrem : out ⊆ listUnion ((findContraction [i, j] sets out).2.1) :=
        out_subset_remaining hsub
      have hrec := ih _ hrem hsubrem
      rw [pathOppAux_cons_eq (fuel + 1) hround, hceq]
      simp only [List.length_cons]
      refine ⟨⟨?_, ?_, ?_⟩, ?_, ?_⟩
      · rw [List.nodup_cons]
        refine ⟨?_, List.nodup_singleton _⟩
        simp only [List.mem_singleton]
        exact Nat.ne_of_lt hij
      · intro x hx
        simp only [List.mem_cons, List.mem_singleton] at hx
        rcases hx with rfl | hx2
        · exact Nat.lt_trans hij hjn
        · rcases hx2 with rfl | h0
          · exact hjn
          · cases h0
      · have hl2 : sets.length - ([i, j] : List Nat).length + 1 = fuel + 2 := by
          show sets.length - 2 + 1 = fuel + 2
          omega
        rw [hl2, ← hrem]
        exact hrec.1
      · simp only [setsExec, setsStep]
        exact hrec.2.1
      · rcases hrec.2.2 with hl | ⟨s, hs, h3, hle⟩
        · left
          rw [hl]
        · right
          refine ⟨s, List.mem_cons_of_mem _ hs, h3, ?_⟩
          omega

theorem length_unselectedFrom_gen (positions : List Nat) :
    ∀ (sets : List (Finset Char)) (k : Nat),
      (unselectedFrom positions k sets).length +
        ((List.range' k sets.length).filter
          (fun i => decide (i ∈ positions))).length = sets.length := by
  intro sets
  induction sets with
  | nil => intro k; rfl
  | cons s rest ih =>
    intro k
    have hrec := ih (k + 1)
    by_cases hk : k ∈ positions
    · simp only [unselectedFrom, List.enumFrom_cons, List.filterMap_cons,
        hk, if_pos, List.length_cons, List.range'_succ, List.filter_cons,
        decide_eq_true_eq, List.length_cons] at hrec ⊢
      omega
    · simp only [unselectedFrom, List.enumFrom_cons, List.filterMap_cons,
        hk, if_neg, not_false_iff, List.length_cons, List.range'_succ,
        List.filter_cons, decide_eq_true_eq] at hrec ⊢
      omega

theorem length_setsStep {out : Finset Char} {sets : List (Finset Char)}
    {positions : List Nat}
    (hnodup : positions.Nodup) (hrange : ∀ p ∈ positions, p < sets.length) :
    (setsStep out sets positions).length = sets.length - positions.length + 1 := by
  have hperm := range_filter_perm (n := sets.length) hnodup hrange
  have hlen := length_unselectedFrom_gen positions sets 0
  have hr0 : List.range' 0 sets.length = List.range sets.length :=
    (List.range_eq_range' _).symm
  rw [hr0, hperm.length_eq] at hlen
  simp only [setsStep, findContraction, fcAux_eq, List.length_append,
    List.length_singleton]
  omega

/-- Running a valid plan through the execution loop never fails, keeps
the loop invariant, mirrors the planner's index-set bookkeeping, shrinks
the operand list exactly as the plan predicts, and preserves the einsum
meaning of the live state. -/
theorem execPlan_ok {d : Char → Nat} {out : Finset Char} {outT : List Char}
    (hout : outT.toFinset = out) :
    ∀ (plan : List (List Nat)) (st : List Entry),
      Inv out st → StepsOK st.length plan →
      ∃ st', execPlan d out plan st = some st' ∧
        Inv out st' ∧
        st'.map Entry.iset = setsExec out plan (st.map Entry.iset) ∧
        st'.length = lenAfter st.length plan ∧
        ∀ σ, meaning d outT st' σ = meaning d outT st σ := by
  intro plan
  induction plan with
  | nil =>
    intro st hinv _
    exact ⟨st, rfl, hinv, rfl, rfl, fun σ => rfl⟩
  | cons p ps ih =>
    intro st hinv hsteps
    obtain ⟨hnd, hrange, hsteps'⟩ := hsteps
    obtain ⟨st₁, hstep, hinv₁, hsets₁, hmean₁⟩ := execStep_ok hout hinv hnd hrange
    have hrange' : ∀ i ∈ p, i < (st.map Entry.iset).length := by
      simpa using hrange
    have hlen₁ : st₁.length = st.length - p.length + 1 := by
      have hcongr := congrArg List.length hsets₁
      simp only [List.length_map] at hcongr
      rw [hcongr, length_setsStep hnd hrange']
      simp
    have hsteps₁ : StepsOK st₁.length ps := by
      rw [hlen₁]; exact hsteps'
    obtain ⟨st', hexec, hinv', hsets', hlen', hmean'⟩ := ih st₁ hinv₁ hsteps₁
    refine ⟨st', ?_, hinv', ?_, ?_, ?_⟩
    · simp only [execPlan]
      rw [hstep]
      exact hexec
    · simp only [setsExec]
      rw [hsets', hsets₁]
    · simp only [lenAfter]
      rw [hlen', hlen₁]
    · intro σ
      rw [hmean' σ, hmean₁ σ]

/-- Every candidate alive after `m` rounds of `_path_optimal` records a
faithful replay: its position list has one pair per round, its
`remaining` and accumulated cost are exactly what replaying those pairs
yields, its steps are valid, and the output labels stay alive. -/
theorem optCandsUpTo_inv {inp : List (List Char)} {out : Finset Char}
    {d : Char → Nat} {memory : Nat}
    (hsub : out ⊆ listUnion (inp.map List.toFinset)) :
    ∀ (m : Nat), m + 1 ≤ inp.length →
      ∀ c ∈ optCandsUpTo inp out d memory m,
      c.pos.length = m ∧
      c.rem = setsExec out (posToPlan c.pos) (inp.map List.toFinset) ∧
      c.rem.length = inp.length - m ∧
      c.cost = planCostAux out d (posToPlan c.pos) (inp.map List.toFinset) ∧
      out ⊆ listUnion c.rem ∧
      StepsOK inp.length (posToPlan c.pos) ∧
      lenAfter inp.length (posToPlan c.pos) = inp.length - m := by
  intro m
  induction m with
  | zero =>
    intro _ c hc
    rw [optCandsUpTo, List.range_zero, List.foldl_nil, List.mem_singleton] at hc
    subst hc
    refine ⟨rfl, rfl, by simp [setsExec, posToPlan], rfl, hsub, trivial, ?_⟩
    simp [lenAfter, posToPlan]
  | succ m ih =>
    intro hmn c' hc'
    rw [optCandsUpTo_succ, optRound, List.mem_flatMap] at hc'
    obtain ⟨c, hc, hext⟩ := hc'
    obtain ⟨hpos, hrem, hlen, hcost, hout, hsteps, hafter⟩ :=
      ih (by omega) c hc
    obtain ⟨i, j, hij, hjk, hsize, rfl⟩ := mem_optExtend.mp hext
    have hjrem : j < c.rem.length := by omega
    have hplan : posToPlan (c.pos ++ [(i, j)]) =
        posToPlan c.pos ++ [[i, j]] := by
      simp [posToPlan]
    refine ⟨?_, ?_, ?_, ?_, ?_, ?_, ?_⟩
    · simp [hpos]
    · simp only [hplan, setsExec_append, ← hrem]
      rfl
    · simp only
      rw [length_remaining_pair hij hjrem, hlen]
      omega
    · simp only [hplan, planCostAux_append, ← hrem, ← hcost]
      simp [planCostAux, setsStep]
    · exact out_subset_remaining hout
    · simp only [hplan]
      refine StepsOK_snoc hsteps ?_ ?_
      · rw [List.nodup_cons]
        refine ⟨?_, List.nodup_singleton _⟩
        simp only [List.mem_singleton]
        exact Nat.ne_of_lt hij
      · intro x hx
        rw [hafter]
        simp only [List.mem_cons, List.mem_singleton] at hx
        rcases hx with rfl | hx2
        · omega
        · rcases hx2 with rfl | h0
          · omega
          · cases h0
    · simp only [hplan]
      rw [lenAfter_snoc, hafter]
      show inp.length - m - 2 + 1 = inp.length - (m + 1)
      omega

theorem remaining_singleton_subset {positions : List Nat}
    {sets : List (Finset Char)} {out : Finset Char}
    (h : (findContraction positions sets out).2.1.length = 1) :
    ∃ s, (findContraction positions sets out).2.1 = [s] ∧ s ⊆ out := by
  have hfc : (findContraction positions sets out).2.1 =
      unselectedFrom positions 0 sets ++
        [(out ∪ listUnion (unselectedFrom positions 0 sets)) ∩
          listUnion (selectedFrom positions 0 sets)] := by
    simp [findContraction, fcAux_eq]
  rw [hfc] at h ⊢
  have hu : unselectedFrom positions 0 sets = [] := by
    rw [List.length_append, List.length_singleton] at h
    exact List.length_eq_zero.mp (by omega)
  rw [hu]
  simp only [List.nil_append, listUnion, List.foldr_nil, Finset.union_empty]
  exact ⟨_, rfl, Finset.inter_subset_left⟩

theorem plans_shape {inp : List (List Char)} {out : Finset Char}
    {d : Char → Nat} {memory : Nat}
    (hsub : out ⊆ listUnion (inp.map List.toFinset))
    (hn : 2 ≤ inp.length) :
    ∀ plan, (pathOptimal inp out d memory = some plan ∨
             plan = pathOpportunistic inp out d memory) →
      StepsOK inp.length plan ∧
      (plan.length = inp.length - 1 ∨
        ((∃ p ∈ plan, 3 ≤ p.length) ∧ plan.length ≤ inp.length - 1)) ∧
      setsExec out plan (inp.map List.toFinset) = [out] := by
  intro plan hplan
  rcases hplan with hopt | rfl
  · rw [pathOptimal, if_neg (by omega)] at hopt
    cases hcands : optCands inp out d memory with
    | nil =>
      rw [hcands] at hopt
      have hplan' : plan = [List.range inp.length] := by
        injection hopt with h; exact h.symm
      subst hplan'
      refine ⟨⟨List.nodup_range _, fun i hi => List.mem_range.mp hi, trivial⟩,
        ?_, ?_⟩
      · rcases Nat.lt_or_ge inp.length 3 with h3 | h3
        · left; simp only [List.length_singleton]; omega
        · right
          refine ⟨⟨List.range inp.length, List.mem_singleton.mpr rfl, ?_⟩, ?_⟩
          · simpa using h3
          · simp only [List.length_singleton]; omega
      · have hrg : List.range inp.length =
            List.range (inp.map List.toFinset).length := by
          rw [List.length_map]
        show setsStep out (inp.map List.toFinset) (List.range inp.length) = [out]
        rw [setsStep, hrg]
        exact findContraction_full hsub
    | cons c cs =>
      rw [hcands] at hopt
      have hmem : pickMinBy candLt c cs ∈
          optCandsUpTo inp out d memory (inp.length - 1) := by
        rw [← optCands_eq_upTo, hcands]
        exact pickMinBy_mem candLt c cs
      obtain ⟨hposlen, hrem, hremlen, _, houtsub, hsteps, _⟩ :=
        optCandsUpTo_inv hsub (inp.length - 1) (by omega) _ hmem
      have hplan' : plan = posToPlan (pickMinBy candLt c cs).pos := by
        injection hopt with h; exact h.symm
      subst hplan'
      have hrfin : (pickMinBy candLt c cs).rem = [out] := by
        obtain hnil | ⟨as, a, hcat⟩ :=
          (pickMinBy candLt c cs).pos.eq_nil_or_concat
        · rw [hnil] at hposlen
          simp at hposlen
          omega
        · rw [List.concat_eq_append] at hcat
          have hdec : posToPlan (pickMinBy candLt c cs).pos =
              posToPlan as ++ [[a.1, a.2]] := by
            rw [hcat]; simp [posToPlan]
          rw [hdec, setsExec_append] at hrem
          have hrem1 : (findContraction [a.1, a.2]
              (setsExec out (posToPlan as) (inp.map List.toFinset))
              out).2.1.length = 1 := by
            have := hremlen
            rw [hrem] at this
            simpa [setsExec, setsStep] using this.trans (by omega)
          obtain ⟨s, hs, hssub⟩ := remaining_singleton_subset hrem1
          have hrs : (pickMinBy candLt c cs).rem = [s] := by
            rw [hrem]
            simpa [setsExec, setsStep] using hs
          rw [hrs] at houtsub
          have hos : out ⊆ s := by
            simpa [listUnion] using houtsub
          rw [hrs, Finset.Subset.antisymm hssub hos]
      refine ⟨hsteps, ?_, ?_⟩
      · left
        simp only [posToPlan, List.length_map]
        omega
      · rw [← hrem, hrfin]
  · obtain ⟨fuel, hfuel⟩ : ∃ fuel, inp.length = fuel + 2 :=
      ⟨inp.length - 2, by omega⟩
    have hlenmap : (inp.map List.toFinset).length = fuel + 2 := by
      simp [hfuel]
    have hplan' : pathOpportunistic inp out d memory =
        pathOppAux out d memory (fuel + 1) (inp.map List.toFinset) := by
      rw [pathOpportunistic, hfuel]
      rfl
    obtain ⟨h1, h2, h3⟩ := opp_plan_props out d memory fuel
      (inp.map List.toFinset) hlenmap hsub
    rw [hplan']
    refine ⟨by simpa using h1, ?_, h2⟩
    rcases h3 with hl | ⟨p, hp, hp3, hple⟩
    · left; omega
    · right; exact ⟨⟨p, hp, hp3⟩, by omega⟩

theorem exec_collapse {d : Char → Nat} {out : Finset Char} {outT : List Char}
    (hout : outT.toFinset = out) {plan : List (List Nat)} {st : List Entry}
    (hinv : Inv out st) (hsteps : StepsOK st.length plan)
    (hsets : setsExec out plan (st.map Entry.iset) = [out]) :
    ∃ e, execPlan d out plan st = some [e] ∧ e.iset = out ∧
      ∀ σ, meaning d outT [e] σ = meaning d outT st σ := by
  obtain ⟨st', hexec, _, hsets', _, hmean'⟩ :=
    execPlan_ok hout plan st hinv hsteps
  rw [hsets] at hsets'
  obtain ⟨e, rfl⟩ : ∃ e, st' = [e] := by
    cases st' with
    | nil => simp at hsets'
    | cons e tl =>
      cases tl with
      | nil => exact ⟨e, rfl⟩
      | cons f tl' => simp at hsets'
  exact ⟨e, hexec, by simpa using hsets', hmean'⟩

/-- C2 (amended).  For inputs with at least two operands, both planning
strategies produce a valid plan: every step has distinct in-range
positions, the plan has exactly `operand_count - 1` steps unless a
pruning fallback fuses three or more operands in one step (then fewer),
the planner's index-set bookkeeping collapses to exactly the output
label set, and executing the plan over any live operand state with that
bookkeeping succeeds and leaves exactly one operand whose tracked label
set is the output label set, preserving the einsum meaning.  (The
original claim's "every valid input" fails at one operand: the greedy
strategy then returns the empty plan, leaving the operand's original
label set, and the exhaustive strategy raises.) -/
theorem c2_plan_validity {inp : List (List Char)} {out : Finset Char}
    {outT : List Char} {d : Char → Nat} {memory : Nat}
    (hout : outT.toFinset = out)
    (hsub : out ⊆ listUnion (inp.map List.toFinset))
    (hn : 2 ≤ inp.length) :
    (∀ plan, (pathOptimal inp out d memory = some plan ∨
              plan = pathOpportunistic inp out d memory) →
      StepsOK inp.length plan ∧
      (plan.length = inp.length - 1 ∨
        ((∃ p ∈ plan, 3 ≤ p.length) ∧ plan.length ≤ inp.length - 1)) ∧
      setsExec out plan (inp.map List.toFinset) = [out] ∧
      (∀ st : List Entry, Inv out st →
        st.map Entry.iset = inp.map List.toFinset →
        ∃ e, execPlan d out plan st = some [e] ∧ e.iset = out ∧
          ∀ σ, meaning d outT [e] σ = meaning d outT st σ)) ∧
    (pathOptimal inp out d memory).isSome = true := by
  refine ⟨?_, pathOptimal_isSome hn⟩
  intro plan hplan
  obtain ⟨hsteps, hlen, hsets⟩ := plans_shape hsub hn plan hplan
  refine ⟨hsteps, hlen, hsets, ?_⟩
  intro st hinv hiso
  have hstlen : st.length = inp.length := by
    have hc := congrArg List.length hiso
    simpa using hc
  exact exec_collapse hout hinv (by rw [hstlen]; exact hsteps)
    (by rw [hiso]; exact hsets)

/-- Counterexample to C2 as stated: on the valid single-operand input
`ab->a` the greedy strategy returns the empty plan (zero steps is indeed
`operand_count - 1`), but executing it leaves one operand whose tracked
label set is `{a, b}`, not the requested output set `{a}`. -/
theorem c2_counterexample :
    pathOpportunistic [['a', 'b']] {'a'} (fun _ => 2) 10 = [] ∧
    setsExec {'a'} (pathOpportunistic [['a', 'b']] {'a'} (fun _ => 2) 10)
      ([['a', 'b']].map List.toFinset) = [{'a', 'b'}] ∧
    ({'a', 'b'} : Finset Char) ≠ {'a'} := by
  refine ⟨rfl, by decide, by decide⟩

theorem c2_witness :
    setsExec {'i', 'k'}
      (pathOpportunistic [['i', 'j'], ['j', 'k']] {'i', 'k'} (fun _ => 3) 100)
      ([['i', 'j'], ['j', 'k']].map List.toFinset) = [{'i', 'k'}] :=
  ((@c2_plan_validity [['i', 'j'], ['j', 'k']] {'i', 'k'} ['i', 'k']
      (fun _ => 3) 100 (by decide) (by decide)
      (by decide)).1 _ (Or.inr rfl)).2.2.1

theorem pairLt_iff {a b : Nat × Nat} :
    pairLt a b = true ↔ (a.1 < b.1 ∨ (a.1 = b.1 ∧ a.2 < b.2)) := by
  simp [pairLt]

theorem posListLt_irrefl : ∀ (as : List (Nat × Nat)), posListLt as as = false := by
  intro as
  induction as with
  | nil => rfl
  | cons a as ih =>
    have hpa : pairLt a a = false := by
      rw [← Bool.not_eq_true, pairLt_iff]
      omega
    simp [posListLt, hpa, ih]

theorem posListLt_trans : ∀ (as bs cs : List (Nat × Nat)),
    posListLt as bs = true → posListLt bs cs = true →
    posListLt as cs = true := by
  intro as
  induction as with
  | nil =>
    intro bs cs h1 h2
    cases bs with
    | nil => exact absurd h1 (by simp [posListLt])
    | cons b bs' =>
      cases cs with
      | nil => exact absurd h2 (by simp [posListLt])
      | cons c cs' => rfl
  | cons a as ih =>
    intro bs cs h1 h2
    cases bs with
    | nil => exact absurd h1 (by simp [posListLt])
    | cons b bs' =>
      cases cs with
      | nil => exact absurd h2 (by simp [posListLt])
      | cons c cs' =>
        simp only [posListLt, Bool.or_eq_true, Bool.and_eq_true,
          decide_eq_true_eq] at h1 h2 ⊢
        rcases h1 with h1 | ⟨hab, h1'⟩
        · rcases h2 with h2 | ⟨hbc, h2'⟩
          · left; rw [pairLt_iff] at h1 h2 ⊢; omega
          · subst hbc; left; exact h1
        · subst hab
          rcases h2 with h2 | ⟨hbc, h2'⟩
          · left; exact h2
          · subst hbc; right; exact ⟨rfl, ih _ _ h1' h2'⟩

theorem posListLt_conn : ∀ (as bs : List (Nat × Nat)),
    posListLt as bs = false → posListLt bs as = false → as = bs := by
  intro as
  induction as with
  | nil =>
    intro bs h1 _
    cases bs with
    | nil => rfl
    | cons b bs' => exact absurd h1 (by simp [posListLt])
  | cons a as ih =>
    intro bs h1 h2
    cases bs with
    | nil => exact absurd h2 (by simp [posListLt])
    | cons b bs' =>
      simp only [posListLt, Bool.or_eq_false_iff, Bool.and_eq_false_iff] at h1 h2
      have hab : a = b := by
        have p1 := h1.1
        have p2 := h2.1
        rw [← Bool.not_eq_true, pairLt_iff] at p1 p2
        obtain ⟨a1, a2⟩ := a
        obtain ⟨b1, b2⟩ := b
        simp only at p1 p2
        simp only [Prod.mk.injEq]
        omega
      subst hab
      rcases h1.2 with hd | hrec
      · exact absurd hd (by simp)
      · rcases h2.2 with hd | hrec2
        · exact absurd hd (by simp)
        · rw [ih _ hrec hrec2]

theorem posListLt_negtrans (as bs cs : List (Nat × Nat))
    (h1 : posListLt as bs = false) (h2 : posListLt bs cs = false) :
    posListLt as cs = false := by
  cases hac : posListLt as cs with
  | false => rfl
  | true =>
    exfalso
    cases hba : posListLt bs as with
    | false =>
      have heq : as = bs := posListLt_conn as bs h1 hba
      subst heq
      simp [h2] at hac
    | true =>
      have hbc := posListLt_trans bs as cs hba hac
      simp [hbc] at h2

theorem candLt_iff {a b : Cand} :
    candLt a b = true ↔
      (a.cost < b.cost ∨ (a.cost = b.cost ∧ posListLt a.pos b.pos = true)) := by
  simp [candLt]

theorem candLt_trans (a b c : Cand) (h1 : candLt a b = true)
    (h2 : candLt b c = true) : candLt a c = true := by
  rw [candLt_iff] at h1 h2 ⊢
  rcases h1 with h1 | ⟨he1, hp1⟩
  · rcases h2 with h2 | ⟨he2, hp2⟩
    · left; omega
    · left; omega
  · rcases h2 with h2 | ⟨he2, hp2⟩
    · left; omega
    · right; exact ⟨by omega, posListLt_trans _ _ _ hp1 hp2⟩

theorem candLt_irrefl (a : Cand) : candLt a a = false := by
  rw [← Bool.not_eq_true, candLt_iff]
  simp [posListLt_irrefl]

theorem candLt_negtrans (a b c : Cand) (h1 : candLt a b = false)
    (h2 : candLt b c = false) : candLt a c = false := by
  rw [← Bool.not_eq_true, candLt_iff] at h1 h2
  rw [← Bool.not_eq_true, candLt_iff]
  push_neg at h1 h2
  obtain ⟨h1a, h1b⟩ := h1
  obtain ⟨h2a, h2b⟩ := h2
  rintro (hlt | ⟨heq, hpos⟩)
  · omega
  · have he1 : a.cost = b.cost := by omega
    have he2 : b.cost = c.cost := by omega
    have hp1 : posListLt a.pos b.pos = false :=
      Bool.eq_false_iff.mpr (h1b he1)
    have hp2 : posListLt b.pos c.pos = false :=
      Bool.eq_false_iff.mpr (h2b he2)
    have hfin := posListLt_negtrans _ _ _ hp1 hp2
    simp [hfin] at hpos

theorem pickMinBy_first (lt : α → α → Bool)
    (htrans : ∀ a b c, lt a b = true → lt b c = true → lt a c = true)
    (hneg : ∀ a b c, lt a b = false → lt b c = false → lt a c = false) :
    ∀ (x : α) (ys : List α), ∃ pre post,
      x :: ys = pre ++ (pickMinBy lt x ys) :: post ∧
      ∀ y ∈ pre, lt (pickMinBy lt x ys) y = true := by
  intro x ys
  induction ys generalizing x with
  | nil => exact ⟨[], [], rfl, by simp⟩
  | cons y ys ih =>
    simp only [pickMinBy]
    by_cases hyx : lt y x = true
    · rw [if_pos hyx]
      obtain ⟨pre', post', hdec, hmin⟩ := ih y
      refine ⟨x :: pre', post', by rw [List.cons_append, ← hdec], ?_⟩
      intro z hz
      rcases List.mem_cons.mp hz with rfl | hz'
      · cases hpre : pre' with
        | nil =>
          rw [hpre, List.nil_append] at hdec
          injection hdec with hr _
          rw [← hr]
          exact hyx
        | cons p ps =>
          rw [hpre, List.cons_append] at hdec
          injection hdec with hp _
          have hy' : y ∈ pre' := by rw [hpre, ← hp]; exact List.mem_cons_self _ _
          exact htrans _ _ _ (hmin y hy') hyx
      · exact hmin z hz'
    · have hyx' : lt y x = false := Bool.eq_false_iff.mpr hyx
      rw [if_neg hyx]
      obtain ⟨pre', post', hdec, hmin⟩ := ih x
      cases hpre : pre' with
      | nil =>
        rw [hpre, List.nil_append] at hdec
        injection hdec with hr hrest
        refine ⟨[], y :: post', ?_, by simp⟩
        rw [List.nil_append, ← hr, hrest]
      | cons p ps =>
        rw [hpre, List.cons_append] at hdec
        injection hdec with hp hrest
        have hxmem : x ∈ pre' := by
          rw [hpre, ← hp]
          exact List.mem_cons_self _ _
        refine ⟨x :: y :: ps, post', ?_, ?_⟩
        · simp only [List.cons_append]
          exact congrArg (fun l => x :: y :: l) hrest
        · intro z hz
          rcases List.mem_cons.mp hz with hzx | hz'
          · rw [hzx]
            exact hmin x hxmem
          · rcases List.mem_cons.mp hz' with hzy | hz''
            · rw [hzy]
              cases hry : lt (pickMinBy lt x ys) y with
              | true => rfl
              | false =>
                have hcontra := hneg _ _ _ hry hyx'
                have hrx := hmin x hxmem
                simp [hcontra] at hrx
            · refine hmin z ?_
              rw [hpre]
              exact List.mem_cons_of_mem _ hz''

theorem posListLt_append_last (as : List (Nat × Nat)) {x y : Nat × Nat}
    (h : pairLt x y = true) : posListLt (as ++ [x]) (as ++ [y]) = true := by
  induction as with
  | nil => simp [posListLt, h]
  | cons a as ih => simp [posListLt, ih]

theorem posListLt_append_right : ∀ (as bs : List (Nat × Nat)),
    as.length = bs.length → posListLt as bs = true →
    ∀ (x y : Nat × Nat), posListLt (as ++ [x]) (bs ++ [y]) = true := by
  intro as
  induction as with
  | nil =>
    intro bs hlen h
    cases bs with
    | nil => exact absurd h (by simp [posListLt])
    | cons b bs' => simp at hlen
  | cons a as ih =>
    intro bs hlen h x y
    cases bs with
    | nil => simp at hlen
    | cons b bs' =>
      simp only [List.cons_append, posListLt, Bool.or_eq_true, Bool.and_eq_true,
        decide_eq_true_eq] at h ⊢
      rcases h with h | ⟨hab, h'⟩
      · left; exact h
      · right; exact ⟨hab, ih bs' (by simpa using hlen) h' x y⟩

theorem triuPairs_sorted (n : Nat) :
    List.Pairwise (fun a b => pairLt a b = true) (triuPairs n) := by
  simp only [triuPairs]
  rw [List.flatMap_def, List.pairwise_flatten]
  constructor
  · intro l' hl'
    rw [List.mem_map] at hl'
    obtain ⟨i, _, rfl⟩ := hl'
    rw [List.pairwise_map]
    have hd : List.Pairwise (· < ·) ((List.range n).drop (i + 1)) :=
      List.Pairwise.sublist (List.drop_sublist _ _) (List.pairwise_lt_range n)
    refine hd.imp ?_
    intro a b h
    exact pairLt_iff.mpr (Or.inr ⟨rfl, h⟩)
  · rw [List.pairwise_map]
    refine (List.pairwise_lt_range n).imp ?_
    intro i j hij x hx y hy
    rw [List.mem_map] at hx hy
    obtain ⟨a, _, rfl⟩ := hx
    obtain ⟨b, _, rfl⟩ := hy
    exact pairLt_iff.mpr (Or.inl hij)

theorem optExtend_sorted (out : Finset Char) (d : Char → Nat)
    (memory k : Nat) (c : Cand) :
    List.Pairwise (fun x y : Cand => posListLt x.pos y.pos = true)
      (optExtend out d memory k c) := by
  refine List.Pairwise.filterMap _ ?_ (triuPairs_sorted k)
  intro a a' hlt b hb b' hb'
  simp only [Option.mem_def] at hb hb'
  have hbpos : b.pos = c.pos ++ [a] := by
    by_cases htest : computeSizeF (findContraction [a.1, a.2] c.rem out).1 d > memory
    · rw [if_pos htest] at hb
      cases hb
    · rw [if_neg htest] at hb
      injection hb with hb
      rw [← hb]
  have hbpos' : b'.pos = c.pos ++ [a'] := by
    by_cases htest : computeSizeF (findContraction [a'.1, a'.2] c.rem out).1 d > memory
    · rw [if_pos htest] at hb'
      cases hb'
    · rw [if_neg htest] at hb'
      injection hb' with hb'
      rw [← hb']
  rw [hbpos, hbpos']
  exact posListLt_append_last c.pos hlt

theorem optCandsUpTo_poslen {inp : List (List Char)} {out : Finset Char}
    {d : Char → Nat} {memory : Nat} :
    ∀ (m : Nat), ∀ c ∈ optCandsUpTo inp out d memory m, c.pos.length = m := by
  intro m
  induction m with
  | zero =>
    intro c hc
    rw [optCandsUpTo, List.range_zero, List.foldl_nil, List.mem_singleton] at hc
    subst hc
    rfl
  | succ m ih =>
    intro c hc
    rw [optCandsUpTo_succ, optRound, List.mem_flatMap] at hc
    obtain ⟨c₀, hc₀, hext⟩ := hc
    obtain ⟨i, j, _, _, _, rfl⟩ := mem_optExtend.mp hext
    simp [ih c₀ hc₀]

theorem optCandsUpTo_sorted {inp : List (List Char)} {out : Finset Char}
    {d : Char → Nat} {memory : Nat} :
    ∀ (m : Nat),
      List.Pairwise (fun x y : Cand => posListLt x.pos y.pos = true)
        (optCandsUpTo inp out d memory m) := by
  intro m
  induction m with
  | zero =>
    rw [optCandsUpTo, List.range_zero, List.foldl_nil]
    simp
  | succ m ih =>
    rw [optCandsUpTo_succ, optRound, List.flatMap_def, List.pairwise_flatten]
    constructor
    · intro l' hl'
      rw [List.mem_map] at hl'
      obtain ⟨c₀, _, rfl⟩ := hl'
      exact optExtend_sorted _ _ _ _ _
    · rw [List.pairwise_map]
      refine (List.Pairwise.and_mem.mp ih).imp ?_
      intro c₁ c₂ h12 x hx y hy
      obtain ⟨hm₁, hm₂, h12'⟩ := h12
      obtain ⟨i, j, _, _, _, rfl⟩ := mem_optExtend.mp hx
      obtain ⟨i', j', _, _, _, rfl⟩ := mem_optExtend.mp hy
      exact posListLt_append_right _ _
        (by rw [optCandsUpTo_poslen m c₁ hm₁, optCandsUpTo_poslen m c₂ hm₂])
        h12' _ _

/-- C4.  The exhaustive strategy runs `operand_count - 1` rounds; each
round extends every surviving candidate by every unordered pair of live
positions, pruning extensions whose result-label size exceeds the memory
ceiling and charging `size(touched_labels)` — doubled when the step
eliminates at least one label — on top of the accumulated cost.  When
candidates survive to the end, the returned plan is the recorded
position list of a candidate `best` whose accumulated cost is the exact
replay cost of its plan and is globally minimal, and every candidate
enumerated before `best` costs strictly more (cost ties are broken by
first-encountered enumeration order). -/
theorem c4_exhaustive_strategy {inp : List (List Char)} {out : Finset Char}
    {d : Char → Nat} {memory : Nat}
    (hsub : out ⊆ listUnion (inp.map List.toFinset)) (hn : 2 ≤ inp.length) :
    (∀ (k : Nat) (c c' : Cand), c' ∈ optExtend out d memory k c ↔
      ∃ i j, i < j ∧ j < k ∧
        computeSizeF (findContraction [i, j] c.rem out).1 d ≤ memory ∧
        c' = ⟨c.cost +
            (if (findContraction [i, j] c.rem out).2.2.1 = ∅ then
              computeSizeF (findContraction [i, j] c.rem out).2.2.2 d
            else 2 * computeSizeF (findContraction [i, j] c.rem out).2.2.2 d),
          c.pos ++ [(i, j)], (findContraction [i, j] c.rem out).2.1⟩) ∧
    (∀ m, optCandsUpTo inp out d memory (m + 1) =
      (optCandsUpTo inp out d memory m).flatMap
        (optExtend out d memory (inp.length - m))) ∧
    (∀ c cs, optCands inp out d memory = c :: cs →
      ∃ best pre post,
        pathOptimal inp out d memory = some (posToPlan best.pos) ∧
        c :: cs = pre ++ best :: post ∧
        best.cost =
          planCostAux out d (posToPlan best.pos) (inp.map List.toFinset) ∧
        best.pos.length = inp.length - 1 ∧
        (∀ y ∈ c :: cs, best.cost ≤ y.cost) ∧
        (∀ y ∈ pre, best.cost < y.cost)) := by
  refine ⟨fun k c c' => mem_optExtend, fun m => by rw [optCandsUpTo_succ]; rfl, ?_⟩
  intro c cs hcands
  have hpath : pathOptimal inp out d memory =
      some (posToPlan (pickMinBy candLt c cs).pos) := by
    rw [pathOptimal, if_neg (by omega), hcands]
    rfl
  obtain ⟨pre, post, hdec, hpre⟩ := pickMinBy_first candLt
    candLt_trans candLt_negtrans c cs
  have hmemall : ∀ y ∈ c :: cs,
      y ∈ optCandsUpTo inp out d memory (inp.length - 1) := by
    intro y hy
    rw [← hcands] at hy
    exact hy
  have hbestmem := hmemall _ (pickMinBy_mem candLt c cs)
  obtain ⟨hblen, _, _, hbcost, _, _, _⟩ :=
    optCandsUpTo_inv hsub (inp.length - 1) (by omega) _ hbestmem
  have hsorted : List.Pairwise
      (fun x y : Cand => posListLt x.pos y.pos = true) (c :: cs) := by
    rw [← hcands]
    exact optCandsUpTo_sorted (inp.length - 1)
  refine ⟨pickMinBy candLt c cs, pre, post, hpath, hdec, hbcost, hblen, ?_, ?_⟩
  · intro y hy
    have hnotlt := pickMinBy_not_lt candLt candLt_trans candLt_negtrans
      candLt_irrefl c cs y hy
    rw [← Bool.not_eq_true, candLt_iff] at hnotlt
    push_neg at hnotlt
    omega
  · intro y hy
    have hlt := hpre y hy
    rw [candLt_iff] at hlt
    rcases hlt with hlt | ⟨heq, hplt⟩
    · exact hlt
    · exfalso
      rw [hdec] at hsorted
      rw [List.pairwise_append] at hsorted
      have hyb := hsorted.2.2 y hy _ (List.mem_cons_self _ _)
      have := posListLt_trans _ _ _ hplt hyb
      simp [posListLt_irrefl] at this

theorem c4_witness :
    optCandsUpTo [['a', 'b'], ['b', 'c']] {'a', 'c'} (fun _ => 2) 100 (0 + 1) =
      (optCandsUpTo [['a', 'b'], ['b', 'c']] {'a', 'c'} (fun _ => 2) 100 0).flatMap
        (optExtend {'a', 'c'} (fun _ => 2) 100
          ([['a', 'b'], ['b', 'c']].length - 0)) :=
  (c4_exhaustive_strategy (by decide) (by decide)).2.1 0

theorem optCandsUpTo_mono {inp : List (List Char)} {out : Finset Char}
    {d : Char → Nat} {m1 m2 : Nat} (hle : m1 ≤ m2) :
    ∀ (m : Nat) (c : Cand), c ∈ optCandsUpTo inp out d m1 m →
      c ∈ optCandsUpTo inp out d m2 m := by
  intro m
  induction m with
  | zero =>
    intro c hc
    rw [optCandsUpTo, List.range_zero, List.foldl_nil] at hc ⊢
    exact hc
  | succ m ih =>
    intro c hc
    rw [optCandsUpTo_succ, optRound, List.mem_flatMap] at hc ⊢
    obtain ⟨c₀, hc₀, hext⟩ := hc
    refine ⟨c₀, ih c₀ hc₀, ?_⟩
    rw [mem_optExtend] at hext ⊢
    obtain ⟨i, j, hij, hjk, hsize, rfl⟩ := hext
    exact ⟨i, j, hij, hjk, le_trans hsize hle, rfl⟩

/-- C7 (amended).  Raising the memory ceiling can only lower (or keep)
the replay cost of the exhaustive strategy's selected plan — provided
the tighter ceiling still leaves at least one complete candidate.  When
the tighter ceiling prunes every candidate, the fallback single-step
plan is selected without any cost comparison, and it can be strictly
cheaper under the planner's own cost model than the plan selected under
a looser ceiling, so the original claim fails in the fallback case. -/
theorem c7_ceiling_monotonicity {inp : List (List Char)} {out : Finset Char}
    {d : Char → Nat} {m1 m2 : Nat}
    (hsub : out ⊆ listUnion (inp.map List.toFinset)) (hn : 2 ≤ inp.length)
    (hle : m1 ≤ m2) (hne : optCands inp out d m1 ≠ []) :
    ∃ p1 p2, pathOptimal inp out d m1 = some p1 ∧
      pathOptimal inp out d m2 = some p2 ∧
      planCostAux out d p2 (inp.map List.toFinset) ≤
        planCostAux out d p1 (inp.map List.toFinset) := by
  cases hc1 : optCands inp out d m1 with
  | nil => exact absurd hc1 hne
  | cons c1 cs1 =>
    have hb1 : pickMinBy candLt c1 cs1 ∈ optCands inp out d m1 := by
      rw [hc1]
      exact pickMinBy_mem candLt c1 cs1
    rw [optCands_eq_upTo] at hb1
    have hb1' := optCandsUpTo_mono hle _ _ hb1
    cases hc2 : optCands inp out d m2 with
    | nil =>
      exfalso
      rw [← optCands_eq_upTo, hc2] at hb1'
      simp at hb1'
    | cons c2 cs2 =>
      have hb2 : pickMinBy candLt c2 cs2 ∈ optCands inp out d m2 := by
        rw [hc2]
        exact pickMinBy_mem candLt c2 cs2
      rw [optCands_eq_upTo] at hb2
      refine ⟨posToPlan (pickMinBy candLt c1 cs1).pos,
        posToPlan (pickMinBy candLt c2 cs2).pos, ?_, ?_, ?_⟩
      · rw [pathOptimal, if_neg (by omega), hc1]
        rfl
      · rw [pathOptimal, if_neg (by omega), hc2]
        rfl
      · obtain ⟨_, _, _, hcost1, _, _, _⟩ :=
          optCandsUpTo_inv hsub (inp.length - 1) (by omega) _ hb1
        obtain ⟨_, _, _, hcost2, _, _, _⟩ :=
          optCandsUpTo_inv hsub (inp.length - 1) (by omega) _ hb2
        rw [← hcost1, ← hcost2]
        have hmem12 : pickMinBy candLt c1 cs1 ∈ c2 :: cs2 := by
          rw [← hc2, optCands_eq_upTo]
          exact hb1'
        have hmin2 := pickMinBy_not_lt candLt candLt_trans candLt_negtrans
          candLt_irrefl c2 cs2 _ hmem12
        rw [← Bool.not_eq_true, candLt_iff] at hmin2
        push_neg at hmin2
        omega

/-- Counterexample to C7 as stated: for `ab,cd,ef->abcdef` with every
dimension 2, the ceiling 32 prunes every complete candidate, so the
fallback single three-operand step (replay cost 64) is returned, while
the looser ceiling 64 selects the pairwise plan of replay cost 80:
tightening the ceiling yielded a strictly cheaper selected plan. -/
theorem c7_counterexample :
    pathOptimal [['a', 'b'], ['c', 'd'], ['e', 'f']]
        {'a', 'b', 'c', 'd', 'e', 'f'} (fun _ => 2) 32 = some [[0, 1, 2]] ∧
    pathOptimal [['a', 'b'], ['c', 'd'], ['e', 'f']]
        {'a', 'b', 'c', 'd', 'e', 'f'} (fun _ => 2) 64 =
      some [[0, 1], [0, 1]] ∧
    planCostAux {'a', 'b', 'c', 'd', 'e', 'f'} (fun _ => 2) [[0, 1, 2]]
        ([['a', 'b'], ['c', 'd'], ['e', 'f']].map List.toFinset) = 64 ∧
    planCostAux {'a', 'b', 'c', 'd', 'e', 'f'} (fun _ => 2) [[0, 1], [0, 1]]
        ([['a', 'b'], ['c', 'd'], ['e', 'f']].map List.toFinset) = 80 := by
  refine ⟨by decide, by decide, by decide, by decide⟩

theorem c7_witness :
    ∃ p1 p2, pathOptimal [['a', 'b'], ['b', 'c']] {'a', 'c'}
        (fun _ => 2) 50 = some p1 ∧
      pathOptimal [['a', 'b'], ['b', 'c']] {'a', 'c'} (fun _ => 2) 100 = some p2 ∧
      planCostAux {'a', 'c'} (fun _ => 2) p2
          ([['a', 'b'], ['b', 'c']].map List.toFinset) ≤
        planCostAux {'a', 'c'} (fun _ => 2) p1
          ([['a', 'b'], ['b', 'c']].map List.toFinset) :=
  c7_ceiling_monotonicity (by decide) (by decide) (by decide) (by decide)

theorem buildState_terms {terms : List (List Char)} {views : List NDView}
    (hlen : terms.length ≤ views.length) :
    (buildState terms views).map Entry.term = terms := by
  rw [buildState, List.map_map]
  exact List.map_fst_zip terms views hlen

theorem buildState_isets {terms : List (List Char)} {views : List NDView}
    (hlen : terms.length ≤ views.length) :
    (buildState terms views).map Entry.iset = terms.map List.toFinset := by
  rw [buildState, List.map_map]
  have h1 : (Entry.iset ∘ fun p : List Char × NDView =>
      Entry.mk p.1.toFinset p.1 (fun σ => p.2.data (p.1.map σ))) =
      (List.toFinset ∘ Prod.fst) := rfl
  rw [h1, ← List.map_map, List.map_fst_zip terms views hlen]

theorem buildState_length {terms : List (List Char)} {views : List NDView}
    (hlen : terms.length = views.length) :
    (buildState terms views).length = terms.length := by
  simp [buildState, List.length_zip, hlen]

theorem buildState_inv (out : Finset Char) (terms : List (List Char))
    (views : List NDView) : Inv out (buildState terms views) := by
  refine ⟨?_, ?_, ?_, ?_⟩
  · intro e he
    rw [buildState, List.mem_map] at he
    obtain ⟨p, _, rfl⟩ := he
    exact Finset.Subset.refl _
  · intro e he
    rw [buildState, List.mem_map] at he
    obtain ⟨p, _, rfl⟩ := he
    intro σ c i hc
    show p.2.data (p.1.map (Function.update σ c i)) = p.2.data (p.1.map σ)
    have hmap : p.1.map (Function.update σ c i) = p.1.map σ := by
      apply List.map_congr_left
      intro a ha
      have hac : a ≠ c := by
        rintro rfl
        exact hc (List.mem_toFinset.mpr ha)
      simp [Function.update_apply, hac]
    rw [hmap]
  · intro e he
    rw [buildState, List.mem_map] at he
    obtain ⟨p, _, rfl⟩ := he
    simp
  · rw [buildState]
    refine List.pairwise_map.mpr (List.pairwise_of_forall ?_)
    intro p q
    constructor <;> simp

theorem lookupDim_append_one {acc : List (Char × Nat)} {c0 : Char} {d0 : Nat}
    {x : Char} (h : (lookupDim (acc ++ [(c0, d0)]) x).isSome = true) :
    (lookupDim acc x).isSome = true ∨ x = c0 := by
  rw [lookupDim, List.find?_append] at h
  cases hf : List.find? (fun p => decide (p.1 = x)) acc with
  | some p =>
    left
    rw [lookupDim, hf]
    rfl
  | none =>
    rw [hf] at h
    by_cases hx : c0 = x
    · right; exact hx.symm
    · exfalso
      simp [List.find?, hx] at h

theorem addDims_keys : ∀ (t : List Char) (shape : List Nat)
    (acc acc' : List (Char × Nat)), addDims t shape acc = .ok acc' →
    ∀ x, (lookupDim acc' x).isSome = true →
      (lookupDim acc x).isSome = true ∨ x ∈ t := by
  intro t
  induction t with
  | nil =>
    intro shape acc acc' h x hx
    simp only [addDims] at h
    injection h with h
    subst h
    left
    exact hx
  | cons c cs ih =>
    intro shape acc acc' h x hx
    cases shape with
    | nil =>
      simp only [addDims] at h
      injection h with h
      subst h
      left
      exact hx
    | cons dim dims =>
      simp only [addDims] at h
      cases hl : lookupDim acc c with
      | some dprev =>
        simp only [hl] at h
        by_cases hne : dprev ≠ dim
        · rw [if_pos hne] at h; cases h
        · rw [if_neg hne] at h
          rcases ih dims acc acc' h x hx with ha | hm
          · left; exact ha
          · right; exact List.mem_cons_of_mem _ hm
      | none =>
        simp only [hl] at h
        rcases ih dims (acc ++ [(c, dim)]) acc' h x hx with ha | hm
        · rcases lookupDim_append_one ha with ha' | hxc
          · left; exact ha'
          · right; rw [hxc]; exact List.mem_cons_self _ _
        · right; exact List.mem_cons_of_mem _ hm

theorem buildDims_keys_aux : ∀ (terms : List (List Char)) (tnum : Nat)
    (vs : List NDView) (acc dims : List (Char × Nat)),
    buildDims tnum terms vs acc = .ok dims →
    ∀ x, (lookupDim dims x).isSome = true →
      (lookupDim acc x).isSome = true ∨ ∃ t ∈ terms, x ∈ t := by
  intro terms
  induction terms with
  | nil =>
    intro tnum vs acc dims h x hx
    simp only [buildDims] at h
    injection h with h
    subst h
    left
    exact hx
  | cons term terms ih =>
    intro tnum vs acc dims h x hx
    cases vs with
    | nil =>
      simp only [buildDims] at h
      injection h with h
      subst h
      left
      exact hx
    | cons v vs =>
      simp only [buildDims] at h
      by_cases hrk : v.shape.length ≠ term.length
      · rw [if_pos hrk] at h; cases h
      · rw [if_neg hrk] at h
        cases ha : addDims term v.shape acc with
        | error e => simp only [ha] at h; cases h
        | ok acc' =>
          simp only [ha] at h
          rcases ih (tnum + 1) vs acc' dims h x hx with h1 | ⟨t, ht, hxt⟩
          · rcases addDims_keys term v.shape acc acc' ha x h1 with h2 | hxterm
            · left; exact h2
            · right; exact ⟨term, List.mem_cons_self _ _, hxterm⟩
          · right; exact ⟨t, List.mem_cons_of_mem _ ht, hxt⟩

theorem computeSizeE_ok_lookup : ∀ (t : List Char) {dims : List (Char × Nat)}
    (a : Nat) {v : Nat}, computeSizeE dims t a = .ok v →
    ∀ c ∈ t, (lookupDim dims c).isSome = true := by
  intro t
  induction t with
  | nil =>
    intro dims a v _ c hc
    exact absurd hc (List.not_mem_nil c)
  | cons c0 cs ih =>
    intro dims a v h c hc
    simp only [computeSizeE] at h
    cases hl : lookupDim dims c0 with
    | none => simp only [hl] at h; cases h
    | some dc =>
      simp only [hl] at h
      rcases List.mem_cons.mp hc with hcc | hcs
      · rw [hcc, hl]; rfl
      · exact ih _ h c hcs

theorem mapM_append_ok {f : List Char → Except CErr Nat}
    {l1 l2 : List (List Char)} {ys : List Nat}
    (h : List.mapM f (l1 ++ l2) = .ok ys) :
    ∃ y1 y2, List.mapM f l1 = .ok y1 ∧ List.mapM f l2 = .ok y2 := by
  rw [List.mapM_append] at h
  cases h1 : List.mapM f l1 with
  | error e => rw [h1] at h; simp [Bind.bind, Except.bind] at h
  | ok y1 =>
    rw [h1] at h
    cases h2 : List.mapM f l2 with
    | error e => rw [h2] at h; simp [Bind.bind, Except.bind] at h
    | ok y2 => exact ⟨y1, y2, rfl, rfl⟩

theorem mapM_singleton_ok {f : List Char → Except CErr Nat} {x : List Char}
    {ys : List Nat} (h : List.mapM f [x] = .ok ys) : ∃ v, f x = .ok v := by
  rw [List.mapM_cons, List.mapM_nil] at h
  cases h2 : f x with
  | error e => rw [h2] at h; simp [Bind.bind, Except.bind] at h
  | ok v => exact ⟨v, rfl⟩

theorem contract_out_subset {inputList : List (List Char)}
    {outputString : List Char} {views : List NDView}
    {dims : List (Char × Nat)} {sizeList : List Nat}
    (hdims : buildDims 0 inputList views [] = .ok dims)
    (hsize : (inputList ++ [outputString]).mapM
      (fun t => computeSizeE dims t 1) = .ok sizeList) :
    outputString.toFinset ⊆ listUnion (inputList.map List.toFinset) := by
  intro c hc
  rw [List.mem_toFinset] at hc
  obtain ⟨y1, y2, _, hlast⟩ := mapM_append_ok hsize
  obtain ⟨v, hv⟩ := mapM_singleton_ok hlast
  have hsome := computeSizeE_ok_lookup outputString 1 hv c hc
  rcases buildDims_keys_aux inputList 0 views [] dims hdims c hsome with
    habs | ⟨t, ht, hct⟩
  · simp [lookupDim] at habs
  · rw [mem_listUnion]
    exact ⟨t.toFinset, List.mem_map_of_mem _ ht, List.mem_toFinset.mpr hct⟩

theorem contract_exec_spec {d : Char → Nat} {outputString : List Char}
    {inputList : List (List Char)} {views : List NDView}
    {path : List (List Nat)}
    (hcount : inputList.length = views.length)
    (hsteps : StepsOK inputList.length path)
    (hsets : setsExec outputString.toFinset path (inputList.map List.toFinset) =
      [outputString.toFinset]) :
    ∃ e', execPlan d outputString.toFinset path (buildState inputList views) =
        some [e'] ∧
      ∀ σ, einsumVal d [e'.term] [e'.val] outputString σ =
        einsumVal d inputList
          ((buildState inputList views).map Entry.val) outputString σ := by
  obtain ⟨e', hexec, _, hmean⟩ := exec_collapse
    (show outputString.toFinset = outputString.toFinset from rfl)
    (buildState_inv _ _ _)
    (by rw [buildState_length hcount]; exact hsteps)
    (by rw [buildState_isets (le_of_eq hcount)]; exact hsets)
  refine ⟨e', hexec, ?_⟩
  intro σ
  have h1 : einsumVal d [e'.term] [e'.val] outputString σ =
      meaning d outputString [e'] σ := rfl
  rw [h1, hmean σ, meaning, buildState_terms (le_of_eq hcount)]

/-- C1.  Whenever `contract` is called with a named planning strategy
(exhaustive or greedy) and returns a result, that result agrees
elementwise (on every label assignment) with the single generalized
reduction of all parsed operands at once under the validated dimension
table — whether it came from a fast path, from the two-operand shortcut,
or from planning and step-by-step execution of either strategy's plan. -/
theorem c1_refinement {s : List Char} {views : List NDView} {nm : List Char}
    {memoryKw : Option Nat} {r : Val}
    (_hnm : nm = "opportunistic".toList ∨ nm = "optimal".toList)
    (hok : contract s views (.named nm) memoryKw = .ok r) :
    ∃ inputString outputString dims,
      parseEinsum s = .ok (inputString, outputString) ∧
      buildDims 0 (splitComma inputString) views [] = .ok dims ∧
      ∀ σ, r σ =
        einsumVal (dimFn dims) (splitComma inputString)
          ((buildState (splitComma inputString) views).map Entry.val)
          outputString σ := by
  rw [contract] at hok
  cases hparse : parseEinsum s with
  | error e => simp only [hparse] at hok; cases hok
  | ok io =>
    obtain ⟨inputString, outputString⟩ := io
    simp only [hparse] at hok
    by_cases hdot : '.' ∈ inputString ∨ '.' ∈ outputString
    · rw [if_pos hdot] at hok; cases hok
    · rw [if_neg hdot] at hok
      by_cases hcount : (splitComma inputString).length ≠ views.length
      · rw [if_pos hcount] at hok; cases hok
      · rw [if_neg hcount] at hok
        push_neg at hcount
        cases hdims : buildDims 0 (splitComma inputString) views [] with
        | error e => simp only [hdims] at hok; cases hok
        | ok dims =>
          simp only [hdims] at hok
          cases hsl : (splitComma inputString ++ [outputString]).mapM
              (fun t => computeSizeE dims t 1) with
          | error e => simp only [hsl] at hok; cases hok
          | ok sizeList =>
            simp only [hsl] at hok
            refine ⟨inputString, outputString, dims, rfl, hdims, ?_⟩
            by_cases hflops : computeSizeF
                (inputString.filter (fun c => c ≠ ',')).toFinset
                (dimFn dims) < 1000000
            · rw [if_pos hflops] at hok
              injection hok with hok
              intro σ
              rw [← hok]
            · rw [if_neg hflops] at hok
              by_cases hind : (inputString.filter (fun c => c ≠ ',')).toFinset =
                  outputString.toFinset
              · rw [if_pos hind] at hok
                injection hok with hok
                intro σ
                rw [← hok]
              · rw [if_neg hind] at hok
                cases hcp : chosenPath (splitComma inputString)
                    outputString.toFinset (dimFn dims) (.named nm)
                    (memoryKw.getD (sizeList.foldl max 0))
                    (sizeList.foldl max 0) with
                | error e => simp only [hcp] at hok; cases hok
                | ok path =>
                  simp only [hcp] at hok
                  have hsub : outputString.toFinset ⊆
                      listUnion ((splitComma inputString).map List.toFinset) :=
                    contract_out_subset hdims hsl
                  simp only [chosenPath] at hcp
                  by_cases h2 : (splitComma inputString).length = 2
                  · rw [if_pos h2] at hcp
                    injection hcp with hcp
                    subst hcp
                    have hsteps : StepsOK (splitComma inputString).length
                        [[0, 1]] := by
                      refine ⟨by decide, ?_, trivial⟩
                      intro i hi
                      rw [h2]
                      rcases List.mem_cons.mp hi with rfl | hi2
                      · omega
                      · rcases List.mem_cons.mp hi2 with rfl | h0
                        · omega
                        · cases h0
                    have hsets : setsExec outputString.toFinset [[0, 1]]
                        ((splitComma inputString).map List.toFinset) =
                        [outputString.toFinset] := by
                      have hlen2 :
                          ((splitComma inputString).map List.toFinset).length =
                          2 := by simp [h2]
                      obtain ⟨s0, s1, hs01⟩ := List.length_eq_two.mp hlen2
                      rw [hs01]
                      show setsStep outputString.toFinset [s0, s1] [0, 1] =
                        [outputString.toFinset]
                      rw [setsStep]
                      apply findContraction_pair_two
                      intro c hc
                      have hmem := hsub hc
                      rw [hs01] at hmem
                      simp only [listUnion, List.foldr_cons, List.foldr_nil,
                        Finset.union_empty] at hmem
                      exact hmem
                    obtain ⟨e', hexec, hval⟩ :=
                      contract_exec_spec (d := dimFn dims) hcount hsteps hsets
                    simp only [hexec] at hok
                    by_cases hterm : e'.term = outputString
                    · rw [if_pos hterm] at hok
                      injection hok with hok
                      intro σ
                      rw [← hok]
                      have hself : e'.val σ =
                          einsumVal (dimFn dims) [e'.term] [e'.val]
                            outputString σ :=
                        (einsumVal_self _ (by rw [hterm]) σ).symm
                      rw [hself, hval σ]
                    · rw [if_neg hterm] at hok
                      injection hok with hok
                      intro σ
                      rw [← hok, hval σ]
                  · rw [if_neg h2] at hcp
                    by_cases hop : nm = "opportunistic".toList
                    · rw [if_pos hop] at hcp
                      injection hcp with hcp
                      rcases Nat.lt_or_ge (splitComma inputString).length 2 with
                        hlt | hge
                      · cases hsplit : splitComma inputString with
                        | nil =>
                          rw [hsplit] at hcount hcp hok
                          have hv : views = [] :=
                            List.length_eq_zero.mp hcount.symm
                          subst hv
                          rw [← hcp] at hok
                          have hred : execPlan (dimFn dims)
                              outputString.toFinset
                              (pathOpportunistic [] outputString.toFinset
                                (dimFn dims)
                                (min (memoryKw.getD (sizeList.foldl max 0))
                                  (sizeList.foldl max 0)))
                              (buildState [] []) = some [] := rfl
                          simp only [hred] at hok
                          cases hok
                        | cons t rest =>
                          cases rest with
                          | nil =>
                            rw [hsplit] at hcount hcp hok
                            obtain ⟨v, hv⟩ :=
                              List.length_eq_one.mp hcount.symm
                            subst hv
                            rw [← hcp] at hok
                            have hred : execPlan (dimFn dims)
                                outputString.toFinset
                                (pathOpportunistic [t] outputString.toFinset
                                  (dimFn dims)
                                  (min (memoryKw.getD (sizeList.foldl max 0))
                                    (sizeList.foldl max 0)))
                                (buildState [t] [v]) =
                                some [⟨t.toFinset, t,
                                  fun σ => v.data (t.map σ)⟩] := rfl
                            simp only [hred] at hok
                            by_cases ht : t = outputString
                            · rw [if_pos ht] at hok
                              injection hok with hok
                              intro σ
                              rw [← hok]
                              have hss : t.toFinset ⊆ outputString.toFinset := by
                                rw [ht]
                              show v.data (List.map σ t) =
                                einsumVal (dimFn dims) [t]
                                  [fun τ => v.data (List.map τ t)] outputString σ
                              exact (einsumVal_self (d := dimFn dims)
                                (fun τ => v.data (List.map τ t)) hss σ).symm
                            · rw [if_neg ht] at hok
                              injection hok with hok
                              intro σ
                              rw [← hok]
                              rfl
                          | cons t2 rest2 =>
                            exfalso
                            rw [hsplit] at hlt
                            simp only [List.length_cons] at hlt
                            omega
                      · have hfacts :=
                          plans_shape hsub hge path (Or.inr hcp.symm)
                        obtain ⟨e', hexec, hval⟩ :=
                          contract_exec_spec (d := dimFn dims) hcount hfacts.1 hfacts.2.2
                        simp only [hexec] at hok
                        by_cases hterm : e'.term = outputString
                        · rw [if_pos hterm] at hok
                          injection hok with hok
                          intro σ
                          rw [← hok]
                          have hself : e'.val σ =
                              einsumVal (dimFn dims) [e'.term] [e'.val]
                                outputString σ :=
                            (einsumVal_self _ (by rw [hterm]) σ).symm
                          rw [hself, hval σ]
                        · rw [if_neg hterm] at hok
                          injection hok with hok
                          intro σ
                          rw [← hok, hval σ]
                    · rw [if_neg hop] at hcp
                      by_cases hopt : nm = "optimal".toList
                      · rw [if_pos hopt] at hcp
                        cases hpo : pathOptimal (splitComma inputString)
                            outputString.toFinset (dimFn dims)
                            (memoryKw.getD (sizeList.foldl max 0)) with
                        | none => simp only [hpo] at hcp; cases hcp
                        | some p =>
                          simp only [hpo] at hcp
                          injection hcp with hcp
                          subst hcp
                          have hge : 2 ≤ (splitComma inputString).length := by
                            by_contra hlt
                            rw [pathOptimal, if_pos (by omega)] at hpo
                            cases hpo
                          have hfacts := plans_shape hsub hge _ (Or.inl hpo)
                          obtain ⟨e', hexec, hval⟩ :=
                            contract_exec_spec (d := dimFn dims) hcount hfacts.1 hfacts.2.2
                          simp only [hexec] at hok
                          by_cases hterm : e'.term = outputString
                          · rw [if_pos hterm] at hok
                            injection hok with hok
                            intro σ
                            rw [← hok]
                            have hself : e'.val σ =
                                einsumVal (dimFn dims) [e'.term] [e'.val]
                                  outputString σ :=
                              (einsumVal_self _ (by rw [hterm]) σ).symm
                            rw [hself, hval σ]
                          · rw [if_neg hterm] at hok
                            injection hok with hok
                            intro σ
                            rw [← hok, hval σ]
                      · rw [if_neg hopt] at hcp
                        cases hcp

theorem c1_witness :
    ∃ inputString outputString dims,
      parseEinsum ("ab,bc->ac".toList) = .ok (inputString, outputString) ∧
      buildDims 0 (splitComma inputString)
        [⟨[100, 100], fun _ => 1⟩, ⟨[100, 100], fun _ => 1⟩] [] =
        .ok dims := by
  obtain ⟨r, hr⟩ : ∃ r, contract ("ab,bc->ac".toList)
      [⟨[100, 100], fun _ => 1⟩, ⟨[100, 100], fun _ => 1⟩]
      (.named ("optimal".toList)) none = .ok r := ⟨_, rfl⟩
  obtain ⟨is, os, dims, h1, h2, _⟩ := c1_refinement (Or.inr rfl) hr
  exact ⟨is, os, dims, h1, h2⟩

theorem addDims_error_kinds : ∀ (t : List Char) (shape : List Nat)
    (acc : List (Char × Nat)) {e : CErr}, addDims t shape acc = .error e →
    ∃ c, e = CErr.labelSizeConflict c := by
  intro t
  induction t with
  | nil =>
    intro shape acc e h
    simp only [addDims] at h
    cases h
  | cons c cs ih =>
    intro shape acc e h
    cases shape with
    | nil => simp only [addDims] at h; cases h
    | cons dim dims =>
      simp only [addDims] at h
      cases hl : lookupDim acc c with
      | some dprev =>
        simp only [hl] at h
        by_cases hne : dprev ≠ dim
        · rw [if_pos hne] at h
          injection h with h
          exact ⟨c, h.symm⟩
        · rw [if_neg hne] at h
          exact ih dims acc h
      | none =>
        simp only [hl] at h
        exact ih dims (acc ++ [(c, dim)]) h

theorem buildDims_error_kinds : ∀ (terms : List (List Char)) (tnum : Nat)
    (vs : List NDView) (acc : List (Char × Nat)) {e : CErr},
    buildDims tnum terms vs acc = .error e →
    (∃ t, e = CErr.rankMismatch t) ∨ ∃ c, e = CErr.labelSizeConflict c := by
  intro terms
  induction terms with
  | nil =>
    intro tnum vs acc e h
    simp only [buildDims] at h
    cases h
  | cons term terms ih =>
    intro tnum vs acc e h
    cases vs with
    | nil => simp only [buildDims] at h; cases h
    | cons v vs =>
      simp only [buildDims] at h
      by_cases hrk : v.shape.length ≠ term.length
      · rw [if_pos hrk] at h
        injection h with h
        exact Or.inl ⟨tnum, h.symm⟩
      · rw [if_neg hrk] at h
        cases ha : addDims term v.shape acc with
        | error e0 =>
          simp only [ha] at h
          injection h with h
          subst h
          exact Or.inr (addDims_error_kinds term v.shape acc ha)
        | ok acc' =>
          simp only [ha] at h
          exact ih (tnum + 1) vs acc' h

theorem computeSizeE_error_kinds : ∀ (t : List Char)
    {dims : List (Char × Nat)} (a : Nat) {e : CErr},
    computeSizeE dims t a = .error e → ∃ c, e = CErr.unknownLabel c := by
  intro t
  induction t with
  | nil =>
    intro dims a e h
    simp only [computeSizeE] at h
    cases h
  | cons c0 cs ih =>
    intro dims a e h
    simp only [computeSizeE] at h
    cases hl : lookupDim dims c0 with
    | none =>
      simp only [hl] at h
      injection h with h
      exact ⟨c0, h.symm⟩
    | some dc =>
      simp only [hl] at h
      exact ih _ h

theorem mapM_error_mem {f : List Char → Except CErr Nat}
    {l : List (List Char)} {e : CErr} :
    List.mapM f l = .error e → ∃ x ∈ l, f x = .error e := by
  induction l with
  | nil =>
    intro h
    rw [List.mapM_nil] at h
    cases h
  | cons x xs ih =>
    intro h
    rw [List.mapM_cons] at h
    cases hx : f x with
    | error e0 =>
      rw [hx] at h
      simp only [Bind.bind, Except.bind] at h
      injection h with h
      subst h
      exact ⟨x, List.mem_cons_self _ _, hx⟩
    | ok v =>
      rw [hx] at h
      simp only [Bind.bind, Except.bind] at h
      cases hxs : List.mapM f xs with
      | error e0 =>
        rw [hxs] at h
        injection h with h
        subst h
        obtain ⟨y, hy, hfy⟩ := ih hxs
        exact ⟨y, List.mem_cons_of_mem _ hy, hfy⟩
      | ok vs =>
        rw [hxs] at h
        simp [Pure.pure, Except.pure] at h

theorem parseEinsum_error_kind {s : List Char} {e : CErr}
    (h : parseEinsum s = .error e) : e = CErr.parseFailure := by
  rw [parseEinsum] at h
  cases hsp : splitArrow s with
  | nil => simp only [hsp] at h; injection h with h; exact h.symm
  | cons a t =>
    cases t with
    | nil => simp only [hsp] at h; cases h
    | cons b t2 =>
      cases t2 with
      | nil => simp only [hsp] at h; cases h
      | cons c t3 => simp only [hsp] at h; injection h with h; exact h.symm

theorem chosenPath_error {inputList : List (List Char)} {outputSet : Finset Char}
    {d : Char → Nat} {pa : PathArg} {memoryArg outSize : Nat} {e : CErr}
    (h : chosenPath inputList outputSet d pa memoryArg outSize = .error e) :
    e = CErr.unknownStrategy ∨ e = CErr.nameErrorNew := by
  cases pa with
  | explicitPath p => simp only [chosenPath] at h; cases h
  | named nm =>
    simp only [chosenPath] at h
    by_cases h2 : inputList.length = 2
    · rw [if_pos h2] at h; cases h
    · rw [if_neg h2] at h
      by_cases hop : nm = "opportunistic".toList
      · rw [if_pos hop] at h; cases h
      · rw [if_neg hop] at h
        by_cases hopt : nm = "optimal".toList
        · rw [if_pos hopt] at h
          cases hpo : pathOptimal inputList outputSet d memoryArg with
          | none => simp only [hpo] at h; injection h with h; right; exact h.symm
          | some p => simp only [hpo] at h; cases h
        · rw [if_neg hopt] at h
          injection h with h
          left
          exact h.symm

/-- C9 (amended).  The validation errors — unsupported expression,
operand-count mismatch, rank mismatch, and label-size conflict (and the
parse and unknown-output-label errors) — are all raised before the path
argument or the memory keyword is ever consulted: an error of any of
those kinds is reproduced verbatim under every other path argument and
memory setting.  An unknown strategy name, however, is only raised when
strategy dispatch is actually reached: validation must succeed, the
flops fast path and the identity fast path must not fire, and the
two-operand shortcut must not apply; otherwise the bogus name is
silently ignored, so "always raises, whatever the operand count or
problem size" is false. -/
theorem c9_error_detection {s : List Char} {views : List NDView} :
    (∀ (pa pa' : PathArg) (mk mk' : Option Nat) (e : CErr),
      contract s views pa mk = .error e →
      e ≠ CErr.unknownStrategy → e ≠ CErr.nameErrorNew →
      e ≠ CErr.indexOutOfRange →
      contract s views pa' mk' = .error e) ∧
    (∀ (nm : List Char) (mk : Option Nat),
      contract s views (.named nm) mk = .error CErr.unknownStrategy →
      ∃ inputString outputString dims sizeList,
        parseEinsum s = .ok (inputString, outputString) ∧
        buildDims 0 (splitComma inputString) views [] = .ok dims ∧
        (splitComma inputString ++ [outputString]).mapM
          (fun t => computeSizeE dims t 1) = .ok sizeList ∧
        ¬ computeSizeF (inputString.filter (fun c => c ≠ ',')).toFinset
            (dimFn dims) < 1000000 ∧
        (inputString.filter (fun c => c ≠ ',')).toFinset ≠
          outputString.toFinset ∧
        (splitComma inputString).length ≠ 2 ∧
        nm ≠ "opportunistic".toList ∧ nm ≠ "optimal".toList) := by
  constructor
  · intro pa pa' mk mk' e hok hne1 hne2 hne3
    rw [contract] at hok ⊢
    cases hparse : parseEinsum s with
    | error e0 =>
      simp only [hparse] at hok ⊢
      exact hok
    | ok io =>
      obtain ⟨is1, os1⟩ := io
      simp only [hparse] at hok ⊢
      by_cases hdot : '.' ∈ is1 ∨ '.' ∈ os1
      · rw [if_pos hdot] at hok ⊢; exact hok
      · rw [if_neg hdot] at hok ⊢
        by_cases hcount : (splitComma is1).length ≠ views.length
        · rw [if_pos hcount] at hok ⊢; exact hok
        · rw [if_neg hcount] at hok ⊢
          cases hdims : buildDims 0 (splitComma is1) views [] with
          | error e0 => simp only [hdims] at hok ⊢; exact hok
          | ok dims =>
            simp only [hdims] at hok ⊢
            cases hsl : (splitComma is1 ++ [os1]).mapM
                (fun t => computeSizeE dims t 1) with
            | error e0 => simp only [hsl] at hok ⊢; exact hok
            | ok sizeList =>
              simp only [hsl] at hok ⊢
              by_cases hflops : computeSizeF
                  (is1.filter (fun c => c ≠ ',')).toFinset
                  (dimFn dims) < 1000000
              · rw [if_pos hflops] at hok; cases hok
              · rw [if_neg hflops] at hok ⊢
                by_cases hind : (is1.filter (fun c => c ≠ ',')).toFinset =
                    os1.toFinset
                · rw [if_pos hind] at hok; cases hok
                · rw [if_neg hind] at hok ⊢
                  cases hcp : chosenPath (splitComma is1) os1.toFinset
                      (dimFn dims) pa (mk.getD (sizeList.foldl max 0))
                      (sizeList.foldl max 0) with
                  | error e0 =>
                    simp only [hcp] at hok
                    injection hok with h
                    subst h
                    rcases chosenPath_error hcp with h1 | h1
                    · exact absurd h1 hne1
                    · exact absurd h1 hne2
                  | ok path =>
                    simp only [hcp] at hok
                    cases hexec : execPlan (dimFn dims) os1.toFinset path
                        (buildState (splitComma is1) views) with
                    | none =>
                      simp only [hexec] at hok
                      injection hok with h
                      exact absurd h.symm hne3
                    | some fst =>
                      cases fst with
                      | nil =>
                        simp only [hexec] at hok
                        injection hok with h
                        exact absurd h.symm hne3
                      | cons e0 tl =>
                        simp only [hexec] at hok
                        by_cases hterm : e0.term = os1
                        · rw [if_pos hterm] at hok; cases hok
                        · rw [if_neg hterm] at hok; cases hok
  · intro nm mk hok
    rw [contract] at hok
    cases hparse : parseEinsum s with
    | error e0 =>
      simp only [hparse] at hok
      injection hok with h
      have hpk := parseEinsum_error_kind hparse
      subst hpk
      cases h
    | ok io =>
      obtain ⟨is1, os1⟩ := io
      simp only [hparse] at hok
      by_cases hdot : '.' ∈ is1 ∨ '.' ∈ os1
      · rw [if_pos hdot] at hok; cases hok
      · rw [if_neg hdot] at hok
        by_cases hcount : (splitComma is1).length ≠ views.length
        · rw [if_pos hcount] at hok; cases hok
        · rw [if_neg hcount] at hok
          cases hdims : buildDims 0 (splitComma is1) views [] with
          | error e0 =>
            simp only [hdims] at hok
            injection hok with h
            rcases buildDims_error_kinds _ _ _ _ hdims with ⟨t, rfl⟩ | ⟨c, rfl⟩ <;>
              cases h
          | ok dims =>
            simp only [hdims] at hok
            cases hsl : (splitComma is1 ++ [os1]).mapM
                (fun t => computeSizeE dims t 1) with
            | error e0 =>
              simp only [hsl] at hok
              injection hok with h
              obtain ⟨x, _, hx⟩ := mapM_error_mem hsl
              obtain ⟨c, rfl⟩ := computeSizeE_error_kinds x 1 hx
              cases h
            | ok sizeList =>
              simp only [hsl] at hok
              by_cases hflops : computeSizeF
                  (is1.filter (fun c => c ≠ ',')).toFinset
                  (dimFn dims) < 1000000
              · rw [if_pos hflops] at hok; cases hok
              · rw [if_neg hflops] at hok
                by_cases hind : (is1.filter (fun c => c ≠ ',')).toFinset =
                    os1.toFinset
                · rw [if_pos hind] at hok; cases hok
                · rw [if_neg hind] at hok
                  cases hcp : chosenPath (splitComma is1) os1.toFinset
                      (dimFn dims) (.named nm)
                      (mk.getD (sizeList.foldl max 0))
                      (sizeList.foldl max 0) with
                  | ok path =>
                    simp only [hcp] at hok
                    cases hexec : execPlan (dimFn dims) os1.toFinset path
                        (buildState (splitComma is1) views) with
                    | none => simp only [hexec] at hok; cases hok
                    | some fst =>
                      cases fst with
                      | nil => simp only [hexec] at hok; cases hok
                      | cons e0 tl =>
                        simp only [hexec] at hok
                        by_cases hterm : e0.term = os1
                        · rw [if_pos hterm] at hok; cases hok
                        · rw [if_neg hterm] at hok; cases hok
                  | error e0 =>
                    simp only [hcp] at hok
                    injection hok with h
                    subst h
                    simp only [chosenPath] at hcp
                    by_cases h2 : (splitComma is1).length = 2
                    · rw [if_pos h2] at hcp; cases hcp
                    · rw [if_neg h2] at hcp
                      by_cases hop : nm = "opportunistic".toList
                      · rw [if_pos hop] at hcp; cases hcp
                      · rw [if_neg hop] at hcp
                        by_cases hopt : nm = "optimal".toList
                        · rw [if_pos hopt] at hcp
                          cases hpo : pathOptimal (splitComma is1)
                              os1.toFinset (dimFn dims)
                              (mk.getD (sizeList.foldl max 0)) with
                          | none => simp only [hpo] at hcp; cases hcp
                          | some p => simp only [hpo] at hcp; cases hcp
                        · exact ⟨is1, os1, dims, sizeList, rfl, hdims, hsl,
                            hflops, hind, h2, hop, hopt⟩

/-- Counterexample to C9 as stated: requesting the unrecognized strategy
name "bogus" does not raise.  Below the flops threshold the fast einsum
path returns normally, and even above the threshold a two-operand call
takes the `n == 2` shortcut before the strategy name is ever examined —
both calls succeed with the bogus name. -/
theorem c9_counterexample :
    (∃ r, contract ("ab,bc->ac".toList)
      [⟨[2, 2], fun _ => 1⟩, ⟨[2, 2], fun _ => 1⟩]
      (.named ("bogus".toList)) none = .ok r) ∧
    (∃ r, contract ("ab,bc->ac".toList)
      [⟨[100, 100], fun _ => 1⟩, ⟨[100, 100], fun _ => 1⟩]
      (.named ("bogus".toList)) none = .ok r) :=
  ⟨⟨_, rfl⟩, ⟨_, rfl⟩⟩

theorem c9_witness :
    contract ("a,b->a".toList) [⟨[2], fun _ => 1⟩]
      (.named ("optimal".toList)) (some 5) = .error CErr.countMismatch :=
  (c9_error_detection).1 (.explicitPath []) (.named ("optimal".toList))
    none (some 5) CErr.countMismatch rfl
    (by decide) (by decide) (by decide)

theorem hasArrow_eq_false : ∀ {s : List Char}, '-' ∉ s → hasArrow s = false := by
  intro s
  induction s with
  | nil => intro _; rfl
  | cons c rest ih =>
    intro h
    rw [List.mem_cons, not_or] at h
    obtain ⟨h1, h2⟩ := h
    rw [hasArrow.eq_def]
    split
    · rfl
    · rename_i heq
      exfalso
      injection heq with hc _
      exact h1 hc.symm
    · rename_i x xs heq
      injection heq with _ hr
      rw [← hr]
      exact ih h2

theorem hasArrow_cons (c : Char) (rest : List Char)
    (hno : ∀ tail, c = '-' → rest = '>' :: tail → False) :
    hasArrow (c :: rest) = hasArrow rest := by
  rw [hasArrow.eq_def]
  split
  · rename_i heq
    cases heq
  · rename_i tail heq
    injection heq with hc hr
    exact (hno tail hc hr).elim
  · rename_i x xs heq
    injection heq with _ hr
    rw [hr]

theorem splitArrow_cons {c : Char} {rest : List Char}
    (hno : ∀ tail, c = '-' → rest = '>' :: tail → False)
    {hd : List Char} {tl : List (List Char)}
    (hsp : splitArrow rest = hd :: tl) :
    splitArrow (c :: rest) = (c :: hd) :: tl := by
  rw [splitArrow.eq_def]
  split
  · rename_i heq
    cases heq
  · rename_i tail heq
    injection heq with hc hr
    exact (hno tail hc hr).elim
  · rename_i x xs heq
    injection heq with hc hr
    rw [← hr]
    simp only [hsp]
    rw [← hc]

theorem splitArrow_no_arrow : ∀ {s : List Char}, hasArrow s = false →
    splitArrow s = [s] := by
  intro s
  induction s with
  | nil => intro _; rfl
  | cons c rest ih =>
    intro h
    have hno : ∀ tail, c = '-' → rest = '>' :: tail → False := by
      intro tail hc hr
      rw [hc, hr] at h
      have htrue : hasArrow ('-' :: '>' :: tail) = true := rfl
      rw [htrue] at h
      cases h
    rw [hasArrow_cons c rest hno] at h
    exact splitArrow_cons hno (ih h)

theorem splitArrow_append : ∀ (s o : List Char), '-' ∉ s →
    hasArrow o = false → splitArrow (s ++ '-' :: '>' :: o) = [s, o] := by
  intro s
  induction s with
  | nil =>
    intro o _ ho
    rw [List.nil_append]
    have harm : splitArrow ('-' :: '>' :: o) = [] :: splitArrow o := rfl
    rw [harm, splitArrow_no_arrow ho]
  | cons c rest ih =>
    intro o h ho
    rw [List.mem_cons, not_or] at h
    obtain ⟨h1, h2⟩ := h
    rw [List.cons_append]
    have hno : ∀ tail, c = '-' →
        rest ++ '-' :: '>' :: o = '>' :: tail → False :=
      fun tail hc _ => h1 hc.symm
    exact splitArrow_cons hno (ih o h2 ho)

/-- C10.  For an expression containing no `'-'` (so in particular no
`'->'` separator — labels `'-'` and `'>'` would be rejected by the
delegated numpy subscript parser, which the embedding does not model),
the inferred output is sorted, contains exactly the labels occurring
exactly once across the comma-stripped operand terms, and `contract`
behaves exactly as if that output had been appended explicitly after an
arrow. -/
theorem c10_implicit_output {s : List Char} (views : List NDView)
    (pathArg : PathArg) (memoryKw : Option Nat) (hdash : '-' ∉ s) :
    List.Sorted (· ≤ ·) (inferOutput s) ∧
    (∀ c, c ∈ inferOutput s ↔
      (s.filter (fun x => x ≠ ',')).count c = 1) ∧
    contract s views pathArg memoryKw =
      contract (s ++ '-' :: '>' :: inferOutput s) views pathArg memoryKw := by
  refine ⟨?_, ?_, ?_⟩
  · rw [inferOutput]
    exact (Finset.sort_sorted _ _).filter _
  · intro c
    rw [inferOutput]
    constructor
    · intro hc
      rw [List.mem_filter] at hc
      simpa using hc.2
    · intro hc
      rw [List.mem_filter]
      refine ⟨?_, by simpa using hc⟩
      rw [Finset.mem_sort, List.mem_toFinset]
      have hpos : 0 < (s.filter (fun x => x ≠ ',')).count c := by omega
      exact List.count_pos_iff.mp hpos
  · have ho : hasArrow (inferOutput s) = false := by
      apply hasArrow_eq_false
      intro hmem
      rw [inferOutput, List.mem_filter] at hmem
      have hm2 := hmem.1
      rw [Finset.mem_sort, List.mem_toFinset, List.mem_filter] at hm2
      exact hdash hm2.1
    have hs1 : parseEinsum s = .ok (s, inferOutput s) := by
      rw [parseEinsum, splitArrow_no_arrow (hasArrow_eq_false hdash)]
    have hs2 : parseEinsum (s ++ '-' :: '>' :: inferOutput s) =
        .ok (s, inferOutput s) := by
      rw [parseEinsum, splitArrow_append s _ hdash ho]
    rw [contract, contract, hs1, hs2]

theorem c10_witness :
    contract ("ab,bc".toList) [⟨[2, 2], fun _ => 1⟩, ⟨[2, 2], fun _ => 1⟩]
        (.explicitPath []) none =
      contract ("ab,bc".toList ++ '-' :: '>' :: inferOutput ("ab,bc".toList))
        [⟨[2, 2], fun _ => 1⟩, ⟨[2, 2], fun _ => 1⟩]
        (.explicitPath []) none :=
  (c10_implicit_output _ _ _ (by decide)).2.2

end OptEinsum
